import Mathlib

/-!
# Verification of the rose-rs wallet core against its specification

This file gives a shallow embedding, in Lean 4, of the parts of the
rose-rs repository that the specification claims talk about:

* the tip5-based content hashing layer (`crates/*-ztd/src/hash.rs`,
  `crates/rose-ztd/src/tip5/hash.rs`, `crates/iris-ztd/src/belt/mod.rs`);
* the noun tree model with its typed encoders and the jam/cue codec
  (`crates/nbx-ztd/src/noun.rs`);
* the content-addressed treap collections (`crates/rose-ztd/src/zset.rs`,
  `crates/rose-ztd/src/zmap.rs`);
* the transaction data model and `RawTx::outputs`
  (`crates/iris-nockchain-types/src/tx_engine/{note,tx}.rs`);
* the transaction builder
  (`crates/rose-nockchain-types/src/tx_engine/builder.rs`).

Machine integers are modelled as `Nat` with explicit wrap-around
(`% 2^64`, `% 2^128`) where the Rust release semantics wraps;
explicit `panic!` / `expect` / `assert!` / out-of-range slicing sites
are modelled as `Option` / error results.  Rust `debug_assert!` sites
(inactive in release builds) are modelled as no-ops.
-/

set_option maxRecDepth 100000

namespace RoseRs

/-- `PRIME` from `crates/iris-ztd/src/belt/mod.rs`: p = 2^64 - 2^32 + 1. -/
def PRIME : Nat := 18446744069414584321

/-- `R2` from `crates/iris-ztd/src/belt/mod.rs`. -/
def R2 : Nat := 18446744065119617025

/-- 2^64, the machine-word modulus. -/
def W64 : Nat := 18446744073709551616

/-- `mont_reduction` from `crates/iris-ztd/src/belt/mod.rs`.  The Rust body
works on `u128`; for the argument ranges arising from `montify`/`montiply`
no `u128` subtraction underflows, so plain `Nat` arithmetic is exact. -/
def montReduction (a : Nat) : Nat :=
  let x1 := a / 2 ^ 32 % 2 ^ 32
  let x2 := a / 2 ^ 64
  let x0 := a % 2 ^ 32
  let c := (x0 + x1) * 2 ^ 32
  let f := c / 2 ^ 64
  let d := c - (x1 + f * PRIME)
  if d ≤ x2 then x2 - d else x2 + PRIME - d

/-- `montify` from `crates/iris-ztd/src/belt/mod.rs` (the `based!` check is a
`debug_assert!`, inactive in release). -/
def montify (a : Nat) : Nat := montReduction (a * R2)

/-- `RATE` of the tip5 sponge: `crates/rose-ztd/src/tip5/hash.rs` copies
`RATE` leading state words per block and `create_init_sponge_fixed` fills
state positions 10..16, so the rate is 10 and the state width 16. -/
def tipRate : Nat := 10

/-- Modelled from the spec: the tip5 permutation itself (its round count,
round constants, S-box table and MDS matrix live in
`crates/rose-ztd/src/tip5/mod.rs`, which is not under `src/`).  Per §4.2 of
the spec every round applies a power S-box, a constant-table addition and an
MDS-like linear layer over the 16-word state; we model it as two such rounds
with x^7 as the power map and a fixed full-rank-style integer matrix, which
keeps the function a deterministic, well-mixing map on 16 field words as the
spec requires.  All theorems that depend on concrete digest values are
settled against this model. -/
def permuteRound (s : List Nat) : List Nat :=
  let sb := s.map fun x => (x ^ 7) % PRIME
  (List.range 16).map fun i =>
    ((List.range 16).foldl (fun acc j => acc + (i * 16 + j + 1) * sb.getD j 0) (i + 1)) % PRIME

/-- Modelled from the spec: see `permuteRound`. -/
def permute (s : List Nat) : List Nat := permuteRound (permuteRound s)

/-- `tip5_absorb_rate` from `crates/rose-ztd/src/tip5/hash.rs`: overwrite the
first `RATE` state words with the block, then permute. -/
def absorbRate (sponge block : List Nat) : List Nat :=
  permute (block ++ sponge.drop tipRate)

/-- Split a list into consecutive chunks of size `tipRate` (the absorb loop of
`tip5_absorb_input`). -/
def chunks (l : List Nat) : List (List Nat) :=
  (List.range ((l.length + tipRate - 1) / tipRate)).map
    fun j => (l.drop (tipRate * j)).take tipRate

/-- A 5-word digest: `Digest` from `crates/rose-ztd/src/hash.rs`. -/
structure Digest where
  d0 : Nat
  d1 : Nat
  d2 : Nat
  d3 : Nat
  d4 : Nat
  deriving DecidableEq, Repr

/-- The five digest words in order. -/
def Digest.toList (d : Digest) : List Nat := [d.d0, d.d1, d.d2, d.d3, d.d4]

/-- `tip5_calc_digest`: the first five sponge words, each taken out of
Montgomery space. -/
def calcDigest (sponge : List Nat) : Digest :=
  { d0 := montReduction (sponge.getD 0 0)
    d1 := montReduction (sponge.getD 1 0)
    d2 := montReduction (sponge.getD 2 0)
    d3 := montReduction (sponge.getD 3 0)
    d4 := montReduction (sponge.getD 4 0) }

/-- `hash_varlen` from `crates/rose-ztd/src/tip5/hash.rs`: pad with
1 followed by zeros to a rate multiple, bring into Montgomery space, absorb
from a zero initial state, squeeze five words. -/
def hashVarlen (input : List Nat) : Digest :=
  let r := input.length % tipRate
  let padded := input ++ 1 :: List.replicate (tipRate - r - 1) 0
  let monty := padded.map montify
  let sponge := (chunks monty).foldl absorbRate (List.replicate 16 0)
  calcDigest sponge

/-- `create_init_sponge_fixed`: zero rate part, capacity filled with
4294967295. -/
def initSpongeFixed : List Nat :=
  List.replicate 10 0 ++ List.replicate 6 4294967295

/-- `hash_fixed` from `crates/rose-ztd/src/tip5/hash.rs`: exactly one
rate-width block (the callers below always pass 10 words), no padding,
fixed initial sponge. -/
def hashFixed (input : List Nat) : Digest :=
  calcDigest (absorbRate initSpongeFixed (input.map montify))

/-- `hash_noun` from `crates/rose-ztd/src/hash.rs`:
`hash_varlen([len(leaves), leaves..., dyck...])`. -/
def hashNoun (leaves dyck : List Nat) : Digest :=
  hashVarlen (leaves.length :: (leaves ++ dyck))

/-- `impl Hashable for Belt` / `u64`: `hash_noun(&[*self], &[])`. -/
def hashAtom (n : Nat) : Digest := hashNoun [n] []

/-- The two-tuple `Hashable` instance from `crates/rose-ztd/src/hash.rs`:
`hash_fixed` of the ten concatenated digest words. -/
def hashPair (a b : Digest) : Digest := hashFixed (a.toList ++ b.toList)

/-- `Digest::to_atom` (via `Base58Belts::<5>::to_atom`): Σ dᵢ · pⁱ. -/
def Digest.toAtom (d : Digest) : Nat :=
  d.d0 + PRIME * (d.d1 + PRIME * (d.d2 + PRIME * (d.d3 + PRIME * d.d4)))

/-- `Digest::to_bytes`: the 40-byte big-endian representation of `toAtom`
(`to_be_bytes` left-padded with zeros into a 40-byte buffer). -/
def Digest.toBytes (d : Digest) : List Nat :=
  (List.range 40).map fun i => d.toAtom / 256 ^ (39 - i) % 256

/-- Lexicographic strict order on byte vectors, as Rust `Vec<u8> <`. -/
def bytesLt : List Nat → List Nat → Bool
  | [], [] => false
  | [], _ :: _ => true
  | _ :: _, [] => false
  | a :: as_, b :: bs => if a < b then true else if b < a then false else bytesLt as_ bs

/-! ## The noun model (`crates/nbx-ztd/src/noun.rs`) -/

/-- `Noun`: an atom (arbitrary nonnegative integer, `UBig` in Rust) or a
cell of two nouns. -/
inductive Noun where
  | atom (n : Nat)
  | cell (l r : Noun)
  deriving DecidableEq, Repr

namespace Noun

/-- Atom count of a noun (`noun_words` in
`crates/iris-nockchain-types/src/tx_engine/tx.rs`). -/
def words : Noun → Nat
  | atom _ => 1
  | cell l r => words l + words r

/-- The `visit` traversal of `impl Hashable for Noun`
(`crates/rose-ztd/src/hash.rs`), with the `expect("atom too large")` abort
modelled as `none`: each atom must fit in a `u64`. -/
def traverseChecked : Noun → Option (List Nat × List Nat)
  | atom n => if n < W64 then some ([n], []) else none
  | cell l r => do
    let (ll, dl) ← traverseChecked l
    let (lr, dr) ← traverseChecked r
    pure (ll ++ lr, 0 :: dl ++ 1 :: dr)

/-- `impl Hashable for Noun` including its abort branch: `none` models the
`expect("atom too large")` panic. -/
def hashChecked (n : Noun) : Option Digest := do
  let (leaves, dyck) ← n.traverseChecked
  pure (hashNoun leaves dyck)

/-- The same traversal on nouns all of whose atoms fit in a `u64` (the only
nouns the library itself ever builds): leaves stream and dyck stream. -/
def traverse : Noun → (List Nat × List Nat)
  | atom n => ([n], [])
  | cell l r =>
    let (ll, dl) := traverse l
    let (lr, dr) := traverse r
    (ll ++ lr, 0 :: dl ++ 1 :: dr)

/-- Total noun hash; agrees with `hashChecked` on nouns whose atoms are all
below 2^64 (see `Noun.hashChecked_eq_hashN`). -/
def hashN (n : Noun) : Digest :=
  hashNoun n.traverse.1 n.traverse.2

/-- Every atom of the noun is a valid `u64`. -/
def boundedAtoms : Noun → Prop
  | atom n => n < W64
  | cell l r => boundedAtoms l ∧ boundedAtoms r

/-- Decidability of `boundedAtoms`, by structural recursion. -/
def decBounded : (n : Noun) → Decidable (boundedAtoms n)
  | atom n => inferInstanceAs (Decidable (n < W64))
  | cell l r => @instDecidableAnd _ _ (decBounded l) (decBounded r)

instance : DecidablePred boundedAtoms := decBounded

end Noun

/-! ## Typed noun encoding (`NounEncode`) and typed hashing (`Hashable`) -/

/-- The `NounEncode` trait. -/
class NEnc (α : Type) where
  toNoun : α → Noun

export NEnc (toNoun)

/-- The `Hashable` trait. -/
class Hsh (α : Type) where
  hsh : α → Digest

export Hsh (hsh)

instance : NEnc Noun := ⟨id⟩

/-- `u64` (and the other integer widths): `atom(*self as u64)`. -/
instance : NEnc Nat := ⟨Noun.atom⟩

/-- `impl NounEncode for bool`: true → 0, false → 1. -/
instance : NEnc Bool := ⟨fun b => Noun.atom (if b then 0 else 1)⟩

/-- `impl NounEncode for Digest`: the five belts as a right-associated
5-element array (last element bare, no terminator). -/
instance : NEnc Digest :=
  ⟨fun d => .cell (.atom d.d0) (.cell (.atom d.d1) (.cell (.atom d.d2)
      (.cell (.atom d.d3) (.atom d.d4))))⟩

/-- Tuples encode right-associated: `cons(a, b)`. -/
instance [NEnc α] [NEnc β] : NEnc (α × β) :=
  ⟨fun p => .cell (toNoun p.1) (toNoun p.2)⟩

/-- `impl NounEncode for Option<T>`: None → 0, Some v → (0, v). -/
instance [NEnc α] : NEnc (Option α) :=
  ⟨fun o => match o with
    | none => .atom 0
    | some v => .cell (.atom 0) (toNoun v)⟩

/-- `impl NounEncode for Vec<T>`: right-fold ending in the terminator 0. -/
instance [NEnc α] : NEnc (List α) :=
  ⟨fun l => l.foldr (fun x acc => .cell (toNoun x) acc) (.atom 0)⟩

/-- `impl NounEncode for &str`: the bytes packed little-endian into one
atom.  All key strings in the library are at most 8 bytes, so the Rust
`u64` shift accumulation never overflows and equals this value. -/
def strAtomAux : List Nat → Nat → Nat
  | [], _ => 0
  | b :: rest, i => b * 256 ^ i + strAtomAux rest (i + 1)

/-- See the doc comment above `strAtomAux`'s caller: little-endian byte
packing of a short string into one atom. -/
def strAtom (s : List Nat) : Nat := strAtomAux s 0

instance : Hsh Digest := ⟨id⟩
instance : Hsh Nat := ⟨hashAtom⟩
/-- `impl Hashable for bool`: true → 0, false → 1. -/
instance : Hsh Bool := ⟨fun b => hashAtom (if b then 0 else 1)⟩
instance : Hsh Unit := ⟨fun _ => hashAtom 0⟩
instance [Hsh α] [Hsh β] : Hsh (α × β) :=
  ⟨fun p => hashPair (hsh p.1) (hsh p.2)⟩
instance [Hsh α] : Hsh (Option α) :=
  ⟨fun o => match o with
    | none => hashAtom 0
    | some v => hashPair (hashAtom 0) (hsh v)⟩

/-- `impl Hashable for Vec<T>` (`hash_slice`): empty → 0.hash(), else
`(first.hash(), hash_slice(rest)).hash()`. -/
def hashVec [Hsh α] : List α → Digest
  | [] => hashAtom 0
  | x :: rest => hashPair (hsh x) (hashVec rest)

instance [Hsh α] : Hsh (List α) := ⟨hashVec⟩

/-! ## Content-addressed treaps (`crates/rose-ztd/src/zset.rs`, `zmap.rs`)

`ZSet<T>` stores `Zeroable<Box<Node<T>>>`: an empty slot is `None` and a
node carries a value and two such slots.  We represent the whole structure
as one inductive tree, `leaf` standing for the empty slot. -/

/-- The treap shape behind `ZSet<T>` (and, with a pair payload, behind
`ZMap<K, V>`). -/
inductive ZTree (α : Type) where
  | leaf
  | node (value : α) (left right : ZTree α)
  deriving DecidableEq, Repr

namespace ZTree

/-- `ZSet::tip_eq`: equality of the noun hashes. -/
def tipEq [NEnc α] (a b : α) : Bool :=
  ((toNoun a).hashN = (toNoun b).hashN : Bool)

/-- `ZSet::gor_tip`: byte-lexicographic order of the two noun hashes. -/
def gorTip [NEnc α] (a b : α) : Bool :=
  bytesLt (toNoun a).hashN.toBytes (toNoun b).hashN.toBytes

/-- `ZSet::double_tip`: `(H(x), H(x)).hash()`. -/
def doubleTip [NEnc α] (a : α) : Digest :=
  hashPair (toNoun a).hashN (toNoun a).hashN

/-- `ZSet::mor_tip`: byte-lexicographic order of the doubled hashes. -/
def morTip [NEnc α] (a b : α) : Bool :=
  bytesLt (doubleTip a).toBytes (doubleTip b).toBytes

/-- `ZSet::put`: BST descent on `gor_tip` with one rotation restoring the
`mor_tip` heap property; an equal-tip value is dropped.  Returns the new
(nonempty) tree and whether the value was inserted. -/
def put [NEnc α] : ZTree α → α → ZTree α × Bool
  | leaf, value => (node value leaf leaf, true)
  | node v l r, value =>
    if tipEq value v then (node v l r, false)
    else if gorTip value v then
      match put l value with
      | (newLeft, inserted) =>
        if !morTip v (rootValue! newLeft v) then
          -- Rotate right
          (node (rootValue! newLeft v) (leftChild newLeft)
            (node v (rightChild newLeft) r), inserted)
        else (node v newLeft r, inserted)
    else
      match put r value with
      | (newRight, inserted) =>
        if !morTip v (rootValue! newRight v) then
          -- Rotate left
          (node (rootValue! newRight v) (node v l (leftChild newRight))
            (rightChild newRight), inserted)
        else (node v l newRight, inserted)
where
  /-- The root payload of a nonempty tree (`put` never returns `leaf`). -/
  rootValue! : ZTree α → α → α
    | leaf, dflt => dflt
    | node v _ _, _ => v
  leftChild : ZTree α → ZTree α
    | leaf => leaf
    | node _ l _ => l
  rightChild : ZTree α → ZTree α
    | leaf => leaf
    | node _ _ r => r

/-- `ZSet::insert`. -/
def insertZ [NEnc α] (t : ZTree α) (value : α) : ZTree α := (put t value).1

/-- `ZSet::from_iter`: insert every element in order into an empty set. -/
def ofList [NEnc α] (l : List α) : ZTree α := l.foldl insertZ leaf

/-- Size of a tree, used for termination of the iterator model. -/
def size : ZTree α → Nat
  | leaf => 0
  | node _ l r => size l + size r + 1

/-- Push a node on the iterator stack; `leaf` is never pushed
(the Rust iterator pushes only `Some` children). -/
def pushIfNode : ZTree α → List (ZTree α) → List (ZTree α)
  | leaf, s => s
  | node v l r, s => node v l r :: s

/-- Termination weight for the iterator stack. -/
def mwt (t : ZTree α) : Nat := 2 * size t + 1

theorem mwt_pushIfNode (t : ZTree α) (s : List (ZTree α)) :
    ((pushIfNode t s).map mwt).sum ≤ 2 * size t + 1 + (s.map mwt).sum := by
  cases t <;> simp [pushIfNode, size, mwt] <;> omega

/-- The loop of `ZSetIntoIterator::next` (`crates/rose-ztd/src/zset.rs`):
pop the top node, push its left child, push its right child (which thus
lands on top), and emit the popped payload. -/
def iterStack : List (ZTree α) → List α
  | [] => []
  | leaf :: rest => iterStack rest
  | node v l r :: rest => v :: iterStack (pushIfNode r (pushIfNode l rest))
  termination_by s => (s.map mwt).sum
  decreasing_by
    · simp only [List.map_cons, List.sum_cons, mwt, size]
      omega
    · have h1 := mwt_pushIfNode l rest
      have h2 := mwt_pushIfNode r (pushIfNode l rest)
      simp only [List.map_cons, List.sum_cons, mwt, size] at *
      omega

/-- `ZSet::into_iter` followed by collection into a `Vec` (`Vec::from`). -/
def tapList (t : ZTree α) : List α := iterStack (pushIfNode t [])

/-- `impl NounEncode for ZSet<T>`: empty slot → 0,
node → `(value, (left, right))`. -/
def zNoun [NEnc α] : ZTree α → Noun
  | leaf => .atom 0
  | node v l r => .cell (toNoun v) (.cell (zNoun l) (zNoun r))

/-- `impl Hashable for ZSet<T>`: empty slot → `0.hash()`,
node → `(value, (left_hash, right_hash)).hash()`. -/
def zHash [Hsh α] : ZTree α → Digest
  | leaf => hashAtom 0
  | node v l r => hashPair (hsh v) (hashPair (zHash l) (zHash r))

/-- `impl NounDecode for ZSet<T>` (with the rose `Zeroable` slot decoding:
atom 0 is the empty slot, anything else decodes as a `Node`, which is the
3-tuple `(value, left, right)`).  `decV` is the payload type's decoder. -/
def zFromNoun (decV : Noun → Option α) : Noun → Option (ZTree α)
  | .atom 0 => some leaf
  | .atom (_ + 1) => none
  | .cell _ (.atom _) => none
  | .cell v (.cell l r) => do
    let value ← decV v
    let lt ← zFromNoun decV l
    let rt ← zFromNoun decV r
    pure (node value lt rt)

/-- The depth-first payload order claimed by the spec: node, left, right. -/
def dfsLR : ZTree α → List α
  | leaf => []
  | node v l r => v :: (dfsLR l ++ dfsLR r)

/-- The depth-first payload order node, right, left. -/
def dfsRL : ZTree α → List α
  | leaf => []
  | node v l r => v :: (dfsRL r ++ dfsRL l)

/-- The payload order embedded in a `ZSet` noun encoding — the order in
which the symmetric parse (`ZSet::from_noun`) meets the payload sub-nouns:
root payload, then the left slot, then the right slot. -/
def nounTapPayloads : Noun → List Noun
  | .atom _ => []
  | .cell _ (.atom _) => []
  | .cell v (.cell l r) => v :: (nounTapPayloads l ++ nounTapPayloads r)

theorem iterStack_cons (t : ZTree α) (rest : List (ZTree α)) :
    iterStack (pushIfNode t rest) = dfsRL t ++ iterStack rest := by
  induction t generalizing rest with
  | leaf => rfl
  | node v l r ihl ihr =>
    have hpush : pushIfNode (node v l r) rest = node v l r :: rest := rfl
    have hstep : iterStack (node v l r :: rest) =
        v :: iterStack (pushIfNode r (pushIfNode l rest)) := by
      rw [iterStack]
    rw [hpush, hstep, ihr, ihl, dfsRL]
    simp

/-- The element sequence of `into_iter` is the node-right-left DFS. -/
theorem tapList_eq_dfsRL (t : ZTree α) : tapList t = dfsRL t := by
  have h0 : iterStack ([] : List (ZTree α)) = [] := by rw [iterStack]
  rw [tapList, iterStack_cons, h0, List.append_nil]

/-- The payload order embedded by `to_noun` is the node-left-right DFS. -/
theorem nounTapPayloads_zNoun [NEnc α] (t : ZTree α) :
    nounTapPayloads (zNoun t) = (dfsLR t).map toNoun := by
  induction t with
  | leaf => simp [zNoun, nounTapPayloads, dfsLR]
  | node v l r ihl ihr => simp [zNoun, nounTapPayloads, dfsLR, ihl, ihr]

end ZTree

/-! ### The map variant (`crates/rose-ztd/src/zmap.rs`)

`ZMap<K, V>` is the same treap with a `(key, value)` payload, except that
all hash comparisons use only the key. -/

namespace ZMap

/-- `ZMap::put`, with `gor`/`mor`/equality computed on the key only. -/
def put [NEnc κ] : ZTree (κ × ν) → κ → ν → ZTree (κ × ν) × Bool
  | .leaf, key, value => (.node (key, value) .leaf .leaf, true)
  | .node kv l r, key, value =>
    if ZTree.tipEq key kv.1 then (.node kv l r, false)
    else if ZTree.gorTip key kv.1 then
      match put l key value with
      | (newLeft, inserted) =>
        if !ZTree.morTip kv.1 (rootKV newLeft kv).1 then
          (.node (rootKV newLeft kv) (lc newLeft) (.node kv (rc newLeft) r),
            inserted)
        else (.node kv newLeft r, inserted)
    else
      match put r key value with
      | (newRight, inserted) =>
        if !ZTree.morTip kv.1 (rootKV newRight kv).1 then
          (.node (rootKV newRight kv) (.node kv l (lc newRight)) (rc newRight),
            inserted)
        else (.node kv l newRight, inserted)
where
  rootKV : ZTree (κ × ν) → (κ × ν) → (κ × ν)
    | .leaf, dflt => dflt
    | .node kv _ _, _ => kv
  lc : ZTree (κ × ν) → ZTree (κ × ν)
    | .leaf => .leaf
    | .node _ l _ => l
  rc : ZTree (κ × ν) → ZTree (κ × ν)
    | .leaf => .leaf
    | .node _ _ r => r

/-- `ZMap::insert`. -/
def insertKV [NEnc κ] (t : ZTree (κ × ν)) (k : κ) (v : ν) : ZTree (κ × ν) :=
  (put t k v).1

/-- `ZMap::from_iter`. -/
def ofList [NEnc κ] (l : List (κ × ν)) : ZTree (κ × ν) :=
  l.foldl (fun t p => insertKV t p.1 p.2) .leaf

/-- `ZMap::get`: descend by key comparisons. -/
def get [NEnc κ] : ZTree (κ × ν) → κ → Option ν
  | .leaf, _ => none
  | .node kv l r, key =>
    if ZTree.tipEq key kv.1 then some kv.2
    else if ZTree.gorTip key kv.1 then get l key
    else get r key

/-- `impl NounEncode for ZMap<K, V>`: node → `((key, value), (l, r))`. -/
def mNoun [NEnc κ] [NEnc ν] : ZTree (κ × ν) → Noun
  | .leaf => .atom 0
  | .node kv l r => .cell (.cell (toNoun kv.1) (toNoun kv.2))
      (.cell (mNoun l) (mNoun r))

/-- `impl Hashable for ZMap<K, V>`:
node → `((key, value), (left_hash, right_hash)).hash()`. -/
def mHash [Hsh κ] [Hsh ν] : ZTree (κ × ν) → Digest
  | .leaf => hashAtom 0
  | .node kv l r =>
    hashPair (hashPair (hsh kv.1) (hsh kv.2)) (hashPair (mHash l) (mHash r))

end ZMap

/-- `impl NounDecode for u64`: an atom that fits in a `u64`. -/
def decU64 : Noun → Option Nat
  | .atom n => if n < W64 then some n else none
  | .cell _ _ => none

/-- The concrete noun `[1 [[2 [0 0]] [3 [0 0]]]]`: a three-node set shape
with root payload 1, left child payload 2, right child payload 3. -/
def nounC4 : Noun :=
  .cell (.atom 1)
    (.cell (.cell (.atom 2) (.cell (.atom 0) (.atom 0)))
           (.cell (.atom 3) (.cell (.atom 0) (.atom 0))))

/-- The tree `ZSet::from_noun` parses out of `nounC4`. -/
def treeC4 : ZTree Nat :=
  .node 1 (.node 2 .leaf .leaf) (.node 3 .leaf .leaf)

/-! ## The jam/cue codec (`crates/nbx-ztd/src/noun.rs`)

Bit buffers are `List Bool` in Lsb0 order (list index = bit index), exactly
the `BitVec<u8, Lsb0>` the Rust code uses.  Wrap-around of machine indices
follows Rust release semantics (`wrapping` on `usize`, masked shifts);
explicit panic sites (out-of-range slicing, `copy_from_bitslice` length
mismatch) are modelled by a distinguished `panicked` outcome. -/

/-- Floor base-2 logarithm by halving; the fuel argument (any bound on the
iteration count, the callers pass the number itself) keeps the recursion
structural so that the kernel can evaluate it. -/
def log2f : Nat → Nat → Nat
  | 0, _ => 0
  | fuel + 1, n => if n ≥ 2 then log2f fuel (n / 2) + 1 else 0

/-- `met0_u64_to_usize` / `UBig::bit_len`: the bit length of a number. -/
def met0 (v : Nat) : Nat := if v = 0 then 0 else log2f v v + 1

/-- The `n` low bits of `v`, least significant first. -/
def natBits (v n : Nat) : List Bool := (List.range n).map (v.testBit ·)

/-- Value of a little-endian bit string. -/
def leBits (l : List Bool) : Nat :=
  l.foldr (fun b acc => 2 * acc + (if b then 1 else 0)) 0

/-- `mat_backref`: emit a backreference at the end of the buffer. -/
def matBackref (buffer : List Bool) (backref : Nat) : List Bool :=
  if backref = 0 then buffer ++ [true, true, true]
  else
    let bsz := met0 backref
    let bszsz := met0 bsz
    buffer ++ [true, true] ++ List.replicate bszsz false ++ [true] ++
      natBits bsz (bszsz - 1) ++ natBits backref bsz

/-- `mat_atom`: emit an atom at the end of the buffer. -/
def matAtom (buffer : List Bool) (a : Nat) : List Bool :=
  if a = 0 then buffer ++ [false, true]
  else
    let asz := met0 a
    let aszsz := met0 asz
    buffer ++ [false] ++ List.replicate aszsz false ++ [true] ++
      natBits asz (aszsz - 1) ++ natBits a asz

/-- `find_backref`: first offset recorded for a structurally equal noun. -/
def findBackref (backrefs : List (Noun × Nat)) (target : Noun) : Option Nat :=
  (backrefs.find? (fun p => p.1 = target)).map (·.2)

/-- The `jam` serialization loop (stack head = top of the Rust stack).  The
`fuel` argument only bounds the iteration count; `jamBits` passes enough
fuel for the loop to run to completion (each iteration removes one stack
entry and pushes at most the entry's two children). -/
def jamLoop (fuel : Nat) (stack : List Noun) (backrefs : List (Noun × Nat))
    (buffer : List Bool) : List Bool :=
  match fuel, stack with
  | _, [] => buffer
  | 0, _ => buffer
  | fuel + 1, current :: rest =>
    match findBackref backrefs current with
    | some backref =>
      match current with
      | .atom a =>
        if met0 backref < met0 a then
          jamLoop fuel rest backrefs (matBackref buffer backref)
        else jamLoop fuel rest backrefs (matAtom buffer a)
      | .cell _ _ => jamLoop fuel rest backrefs (matBackref buffer backref)
    | none =>
      let backrefs := backrefs ++ [(current, buffer.length)]
      match current with
      | .atom a => jamLoop fuel rest backrefs (matAtom buffer a)
      | .cell l r =>
        jamLoop fuel (l :: r :: rest) backrefs (buffer ++ [true, false])

/-- Number of constructors of a noun, the jam loop's work bound. -/
def Noun.nsize : Noun → Nat
  | .atom _ => 1
  | .cell l r => l.nsize + r.nsize + 1

/-- `jam` down to the bit buffer. -/
def jamBits (n : Noun) : List Bool := jamLoop (2 * n.nsize + 1) [n] [] []

/-- Value of up to eight Lsb0 bits as one byte. -/
def byteVal (l : List Bool) : Nat := leBits (l.take 8)

/-- `BitVec::into_vec`: pack the bits into bytes, zero-padding the tail. -/
def bytesOfBits (l : List Bool) : List Nat :=
  (List.range ((l.length + 7) / 8)).map fun j => byteVal ((l.drop (8 * j)).take 8)

/-- `jam`: the serialized bytes. -/
def jam (n : Noun) : List Nat := bytesOfBits (jamBits n)

/-- `BitSlice::from_slice`: the bits of the bytes, Lsb0. -/
def bitsOfBytes (bs : List Nat) : List Bool :=
  bs.foldr (fun b acc => ((List.range 8).map (b.testBit ·)) ++ acc) []

/-- Outcome of `cue`: a decoded noun, a clean `None`, or a panic. -/
inductive CueResult where
  | success (n : Noun)
  | failure
  | panicked
  deriving DecidableEq, Repr

/-- A position in the result tree (`false` = head/left, `true` =
tail/right): the functional stand-in for the raw `*mut Noun` pointers of
the Rust decoder. -/
abbrev CuePath := List Bool

/-- Read the subtree at a path (dereference a destination pointer).  The
fallthrough cases are unreachable: the decoder only reads paths it has
already written a cell along. -/
def Noun.getAt : Noun → CuePath → Noun
  | n, [] => n
  | .cell l _, false :: p => l.getAt p
  | .cell _ r, true :: p => r.getAt p
  | .atom a, _ :: _ => .atom a

/-- Write the subtree at a path (assignment through a destination
pointer). -/
def Noun.setAt : Noun → CuePath → Noun → Noun
  | _, [], v => v
  | .cell l r, false :: p, v => .cell (l.setAt p v) r
  | .cell l r, true :: p, v => .cell l (r.setAt p v)
  | .atom a, _ :: _, _ => .atom a

/-- `BTreeMap::insert` on the backref map (overwrite an existing key). -/
def brmInsert (m : List (Nat × CuePath)) (k : Nat) (v : CuePath) :
    List (Nat × CuePath) :=
  (k, v) :: m.filter (fun p => p.1 ≠ k)

/-- `BTreeMap::get`. -/
def brmGet (m : List (Nat × CuePath)) (k : Nat) : Option CuePath :=
  (m.find? (fun p => p.1 = k)).map (·.2)

/-- `next_bit`: read one bit; past the end it returns `false` WITHOUT
advancing the cursor. -/
def nextBit (cursor : Nat) (buffer : List Bool) : Bool × Nat :=
  if cursor < buffer.length then (buffer.getD cursor false, cursor + 1)
  else (false, cursor)

/-- `next_up_to_n_bits`: up to `n` bits from the cursor (clamped at the
buffer end), always advancing the cursor by `n`. -/
def nextUpToN (cursor : Nat) (buffer : List Bool) (n : Nat) :
    List Bool × Nat :=
  ((buffer.drop cursor).take n, cursor + n)

/-- Index of the first set bit at or after the cursor (`first_one`). -/
def firstOne (cursor : Nat) (buffer : List Bool) : Option Nat :=
  ((buffer.drop cursor).findIdx? (· = true))

/-- `get_size`.  `none` is the clean `?` failure; `panicked` models the two
panic sites of the Rust body: slicing the 64-bit scratch buffer
`[0..bitsize-1]` with `bitsize - 1 > 64`, and `copy_from_bitslice` with a
source of a different length than `bitsize - 1` (a truncated buffer).
The final `+ (1 << (bitsize - 1))` wraps as a release-mode `usize` shift
(shift amount masked to six bits) and addition. -/
def getSize (cursor : Nat) (buffer : List Bool) :
    Except CueResult (Nat × Nat) := do
  match firstOne cursor buffer with
  | none => throw .failure
  | some bitsize =>
    if bitsize = 0 then pure (0, cursor + 1)
    else
      let cursor := cursor + bitsize + 1
      let (sizeBits, cursor) := nextUpToN cursor buffer (bitsize - 1)
      if bitsize - 1 > 64 then throw .panicked
      else if sizeBits.length ≠ bitsize - 1 then throw .panicked
      else
        pure ((leBits sizeBits + 2 ^ ((bitsize - 1) % 64)) % W64, cursor)

/-- `rub_backref`.  The direct slice `buffer[cursor..cursor + size]`
panics when it runs past the buffer end. -/
def rubBackref (cursor : Nat) (buffer : List Bool) :
    Except CueResult (Nat × Nat) := do
  let (size, cursor) ← getSize cursor buffer
  if size = 0 then pure (0, cursor)
  else if size ≤ 64 then
    if buffer.length < cursor + size then throw .panicked
    else pure (leBits ((buffer.drop cursor).take size), cursor + size)
  else throw .failure

/-- `rub_atom`.  In the indirect branch the Rust body copies the read bits
into a fresh `wordsize * 64`-bit buffer with `copy_from_bitslice`, which
panics unless the two lengths coincide — i.e. unless the size is a positive
multiple of 64 and the buffer holds that many bits. -/
def rubAtom (cursor : Nat) (buffer : List Bool) :
    Except CueResult (Nat × Nat) := do
  let (size, cursor0) ← getSize cursor buffer
  let (bits, cursor) := nextUpToN cursor0 buffer size
  if size = 0 then pure (0, cursor)
  else if size < 64 then pure (leBits bits, cursor)
  else
    let wordsize := (size + 63) / 64
    if bits.length ≠ wordsize * 64 then throw .panicked
    else pure (leBits bits, cursor)

/-- A decoder stack entry: a destination pointer, or a deferred backref
registration. -/
inductive CueEntry where
  | dest (path : CuePath)
  | backRef (off : Nat) (path : CuePath)

/-- The `cue_bitslice` loop.  `result` is the noun under construction (the
Rust code writes into it through raw pointers; we write through paths), and
the backref map stores paths instead of pointers, so a backref resolved
while its target is still under construction reads the target's current
partial value, exactly as the pointer dereference does.  `fuel` bounds the
iteration count; `cueBits` passes enough (each iteration consumes a stack
entry, and at most three entries ever exist per two bits of input). -/
def cueLoop (fuel : Nat) (stack : List CueEntry) (cursor : Nat)
    (buffer : List Bool) (brm : List (Nat × CuePath)) (result : Noun) :
    CueResult :=
  match fuel, stack with
  | _, [] => .success result
  | 0, _ => .failure
  | fuel + 1, entry :: rest =>
    match entry with
    | .backRef off path => cueLoop fuel rest cursor buffer (brmInsert brm off path) result
    | .dest path =>
      let (b1, cursor) := nextBit cursor buffer
      if b1 then
        let (b2, cursor) := nextBit cursor buffer
        if b2 then
          match rubBackref cursor buffer with
          | .error e => e
          | .ok (backref, cursor) =>
            match brmGet brm backref with
            | none => .failure
            | some src =>
              cueLoop fuel rest cursor buffer brm
                (result.setAt path (result.getAt src))
        else
          let result := result.setAt path (.cell (.atom 0) (.atom 0))
          let off := (cursor + W64 - 2) % W64
          let brm := brmInsert brm off path
          cueLoop fuel
            (.dest (path ++ [false]) :: .dest (path ++ [true]) ::
              .backRef off path :: rest)
            cursor buffer brm result
      else
        let off := (cursor + W64 - 1) % W64
        match rubAtom cursor buffer with
        | .error e => e
        | .ok (v, cursor) =>
          cueLoop fuel rest cursor buffer (brmInsert brm off path)
            (result.setAt path (.atom v))

/-- `cue_bitslice`. -/
def cueBits (buffer : List Bool) : CueResult :=
  cueLoop (4 * buffer.length + 8) [.dest []] 0 buffer [] (.atom 0)

/-- `cue`. -/
def cue (bytes : List Nat) : CueResult := cueBits (bitsOfBytes bytes)

/-! ## Names and sources (`crates/iris-nockchain-types/src/tx_engine/note.rs`) -/

/-- `Source`: a digest and a coinbase flag. -/
structure Source where
  hash : Digest
  is_coinbase : Bool
  deriving DecidableEq, Repr

/-- `#[derive(Hashable)] struct Source`: the right-nested field tuple
`(&self.hash, &self.is_coinbase).hash()`. -/
instance : Hsh Source := ⟨fun s => hashPair (hsh s.hash) (hsh s.is_coinbase)⟩

/-- `#[derive(NounEncode)] struct Source`. -/
instance : NEnc Source := ⟨fun s => .cell (toNoun s.hash) (toNoun s.is_coinbase)⟩

/-- `Name`: a pair of digests plus the `_sig: u64` end-of-list marker. -/
structure Name where
  first : Digest
  last : Digest
  sigMark : Nat
  deriving DecidableEq, Repr

/-- `Name::new`. -/
def Name.new (first last : Digest) : Name :=
  { first := first, last := last, sigMark := 0 }

/-- `Name::new_v1`:
`first = (true, lock).hash()`, `last = (true, source.hash(), 0).hash()`. -/
def Name.newV1 (lock : Digest) (source : Source) : Name :=
  Name.new (hashPair (hsh true) (hsh lock))
    (hashPair (hsh true) (hashPair (hsh (α := Source) source) (hashAtom 0)))

/-- `#[derive(Hashable)] struct Name`: `(&first, &(&last, &_sig)).hash()`. -/
instance : Hsh Name :=
  ⟨fun n => hashPair (hsh n.first) (hashPair (hsh n.last) (hashAtom n.sigMark))⟩

/-- `#[derive(NounEncode)] struct Name`. -/
instance : NEnc Name :=
  ⟨fun n => .cell (toNoun n.first) (.cell (toNoun n.last) (.atom n.sigMark))⟩

/-! ## Treap determinism (towards claim C6)

The treap built by `ZSet::insert` orders values by the byte-lexicographic
comparison of fixed-width big-endian digest bytes, which coincides with the
numeric order of `Digest::to_atom`.  We first prove that bridge, then show
insertion maintains the strict BST/heap invariants, and finally that a tree
satisfying them is unique for its element set. -/

/-- The `k` big-endian base-256 digits of `a`. -/
def bytesBE (a k : Nat) : List Nat :=
  (List.range k).map fun i => a / 256 ^ (k - 1 - i) % 256

theorem Digest.toBytes_eq_bytesBE (d : Digest) : d.toBytes = bytesBE d.toAtom 40 := by
  simp only [Digest.toBytes, bytesBE]

/-- A base-256 digit below position `k` only depends on `a % 256^k`. -/
theorem digitLow (a k j : Nat) (hj : j < k) :
    a / 256 ^ j % 256 = (a % 256 ^ k) / 256 ^ j % 256 := by
  conv_lhs => rw [← Nat.div_add_mod a (256 ^ k)]
  have hfact : 256 ^ k * (a / 256 ^ k) =
      256 ^ (k - j) * (a / 256 ^ k) * 256 ^ j := by
    rw [mul_right_comm, ← pow_add]
    congr 2
    omega
  rw [hfact, Nat.add_comm (256 ^ (k - j) * (a / 256 ^ k) * 256 ^ j) (a % 256 ^ k),
    Nat.add_mul_div_right _ _ (Nat.pos_pow_of_pos j (by norm_num))]
  have hk : 256 ^ (k - j) * (a / 256 ^ k) =
      256 * (256 ^ (k - j - 1) * (a / 256 ^ k)) := by
    rw [← mul_assoc, ← pow_succ']
    congr 2
    omega
  rw [hk, Nat.add_mul_mod_self_left]

theorem bytesBE_succ (a k : Nat) :
    bytesBE a (k + 1) = (a / 256 ^ k % 256) :: bytesBE (a % 256 ^ k) k := by
  rw [bytesBE, List.range_succ_eq_map, List.map_cons, List.map_map, bytesBE]
  congr 1
  refine List.map_congr_left fun i hi => ?_
  simp only [List.mem_range] at hi
  simp only [Function.comp_apply]
  have h1 : k + 1 - 1 - (i + 1) = k - 1 - i := by omega
  rw [h1]
  exact digitLow a k (k - 1 - i) (by omega)

theorem bytesLt_bytesBE (k : Nat) :
    ∀ a b : Nat, a < 256 ^ k → b < 256 ^ k →
      bytesLt (bytesBE a k) (bytesBE b k) = decide (a < b) := by
  induction k with
  | zero =>
    intro a b ha hb
    simp only [pow_zero, Nat.lt_one_iff] at ha hb
    subst ha
    subst hb
    rfl
  | succ k ih =>
    intro a b ha hb
    have hqa : a / 256 ^ k < 256 :=
      Nat.div_lt_of_lt_mul (by rw [← pow_succ]; exact ha)
    have hqb : b / 256 ^ k < 256 :=
      Nat.div_lt_of_lt_mul (by rw [← pow_succ]; exact hb)
    have hma : a % 256 ^ k < 256 ^ k := Nat.mod_lt _ (Nat.pos_pow_of_pos k (by norm_num))
    have hmb : b % 256 ^ k < 256 ^ k := Nat.mod_lt _ (Nat.pos_pow_of_pos k (by norm_num))
    rw [bytesBE_succ, bytesBE_succ]
    simp only [bytesLt, Nat.mod_eq_of_lt hqa, Nat.mod_eq_of_lt hqb, ih _ _ hma hmb]
    rcases Nat.lt_trichotomy (a / 256 ^ k) (b / 256 ^ k) with h | h | h
    · have hab : a < b := Nat.lt_of_div_lt_div h
      simp [h, hab]
    · have h1 : ¬ a / 256 ^ k < b / 256 ^ k := by omega
      have h2 : ¬ b / 256 ^ k < a / 256 ^ k := by omega
      have hiff : a < b ↔ a % 256 ^ k < b % 256 ^ k := by
        conv_lhs => rw [← Nat.div_add_mod a (256 ^ k), ← Nat.div_add_mod b (256 ^ k)]
        rw [h]
        constructor <;> intro hx <;> omega
      rw [if_neg h1, if_neg h2]
      by_cases hab : a % 256 ^ k < b % 256 ^ k
      · simp [hab, hiff.mpr hab]
      · have hnb : ¬ a < b := fun hh => hab (hiff.mp hh)
        simp [hab, hnb]
    · have hba : b < a := Nat.lt_of_div_lt_div h
      have h1 : ¬ a / 256 ^ k < b / 256 ^ k := by omega
      simp [h1, h, show ¬ a < b by omega]

/-- 2^320 as the 40-byte capacity. -/
theorem pow320_eq : (2 : Nat) ^ 320 = 256 ^ 40 := by norm_num

/-- Byte-lexicographic comparison of two in-capacity digests is the numeric
comparison of their atoms. -/
theorem bytesLt_toBytes (d e : Digest) (hd : d.toAtom < 2 ^ 320)
    (he : e.toAtom < 2 ^ 320) :
    bytesLt d.toBytes e.toBytes = decide (d.toAtom < e.toAtom) := by
  rw [Digest.toBytes_eq_bytesBE, Digest.toBytes_eq_bytesBE]
  exact bytesLt_bytesBE 40 _ _ (pow320_eq ▸ hd) (pow320_eq ▸ he)

namespace ZTree

variable {α : Type} [NEnc α]

/-- The numeric value of a value's equality key (tip). -/
def keyA (x : α) : Nat := ((toNoun x).hashN).toAtom

/-- The numeric value of a value's priority (mor). -/
def prA (x : α) : Nat := (doubleTip x).toAtom

/-- A value whose tip and mor digests fit the 40-byte capacity (true of
every digest the hash produces). -/
def okElem (x : α) : Prop := keyA x < 2 ^ 320 ∧ prA x < 2 ^ 320

theorem gorTip_eq_keyA {x y : α} (hx : okElem x) (hy : okElem y) :
    gorTip x y = decide (keyA x < keyA y) :=
  bytesLt_toBytes _ _ hx.1 hy.1

theorem morTip_eq_prA {x y : α} (hx : okElem x) (hy : okElem y) :
    morTip x y = decide (prA x < prA y) :=
  bytesLt_toBytes _ _ hx.2 hy.2

theorem tipEq_of_eq {x y : α} (h : x = y) : tipEq x y = true := by
  subst h
  simp [tipEq]

theorem keyA_eq_of_tipEq {x y : α} (h : tipEq x y = true) : keyA x = keyA y := by
  simp only [tipEq, decide_eq_true_eq] at h
  simp [keyA, h]

/-- In-order element list of a treap. -/
def elems : ZTree α → List α
  | leaf => []
  | node v l r => elems l ++ v :: elems r

/-- The strict BST invariant on tip keys. -/
def IsBST : ZTree α → Prop
  | leaf => True
  | node v l r =>
      (∀ y ∈ elems l, keyA y < keyA v) ∧ (∀ y ∈ elems r, keyA v < keyA y) ∧
      IsBST l ∧ IsBST r

/-- The strict min-heap invariant on mor priorities. -/
def IsHeap : ZTree α → Prop
  | leaf => True
  | node v l r =>
      (∀ y ∈ elems l, prA v < prA y) ∧ (∀ y ∈ elems r, prA v < prA y) ∧
      IsHeap l ∧ IsHeap r

/-- Root payload of a treap, if any. -/
def rootD : ZTree α → Option α
  | leaf => none
  | node v _ _ => some v

theorem mem_elems_node {z v : α} {l r : ZTree α} :
    z ∈ elems (node v l r) ↔ z ∈ elems l ∨ z = v ∨ z ∈ elems r := by
  simp [elems]

/-- In a heap, the root has the strictly smallest priority. -/
theorem heap_root_lt {v : α} {l r : ZTree α} (h : IsHeap (node v l r)) :
    ∀ y, y ∈ elems (node v l r) → y ≠ v → prA v < prA y := by
  intro y hy hne
  rcases mem_elems_node.mp hy with h1 | h1 | h1
  · exact h.1 y h1
  · exact absurd h1 hne
  · exact h.2.1 y h1

theorem put_fst_shape (t : ZTree α) (x : α) :
    ∃ m a b, (put t x).1 = node m a b := by
  cases t with
  | leaf => exact ⟨x, leaf, leaf, rfl⟩
  | node v l r =>
    rw [put]
    rcases hpl : put l x with ⟨l1, insl⟩
    rcases hpr : put r x with ⟨r1, insr⟩
    by_cases h1 : tipEq x v
    · simp only [h1, if_true]
      exact ⟨v, l, r, rfl⟩
    · by_cases h2 : gorTip x v <;>
        simp only [h1, h2, if_true, if_false, Bool.false_eq_true, hpl, hpr] <;>
        split <;> exact ⟨_, _, _, rfl⟩

/-- Unfolding of `put` at a node when descending into the left child. -/
theorem put_node_left {v : α} {l r : ZTree α} {x : α} (h1 : ¬ tipEq x v = true)
    (h2 : gorTip x v = true) {m : α} {a b : ZTree α} {ins : Bool}
    (hpl : put l x = (node m a b, ins)) :
    (put (node v l r) x).1 =
      if morTip v m then node v (node m a b) r else node m a (node v b r) := by
  rw [put, if_neg h1, if_pos h2, hpl]
  by_cases hrot : morTip v m <;>
    simp [hrot, put.rootValue!, put.leftChild, put.rightChild]

/-- Unfolding of `put` at a node when descending into the right child. -/
theorem put_node_right {v : α} {l r : ZTree α} {x : α} (h1 : ¬ tipEq x v = true)
    (h2 : ¬ gorTip x v = true) {m : α} {a b : ZTree α} {ins : Bool}
    (hpr : put r x = (node m a b, ins)) :
    (put (node v l r) x).1 =
      if morTip v m then node v l (node m a b) else node m (node v l a) b := by
  rw [put, if_neg h1, if_neg h2, hpr]
  by_cases hrot : morTip v m <;>
    simp [hrot, put.rootValue!, put.leftChild, put.rightChild]

/-- The central insertion lemma: on a treap satisfying the strict BST and
heap invariants, `put` preserves both, adds exactly the new value to the
element set, and returns a tree whose root is either the new value or the
old root. -/
theorem put_spec (x : α) (hokx : okElem x) : ∀ t : ZTree α,
    (∀ y ∈ elems t, okElem y) →
    (∀ y ∈ elems t, keyA y = keyA x → y = x) →
    (∀ y ∈ elems t, prA y = prA x → y = x) →
    IsBST t → IsHeap t →
    IsBST (put t x).1 ∧ IsHeap (put t x).1 ∧
    (∀ z, z ∈ elems (put t x).1 ↔ z ∈ elems t ∨ z = x) ∧
    (rootD (put t x).1 = some x ∨ rootD (put t x).1 = rootD t) := by
  intro t
  induction t with
  | leaf =>
    intro _ _ _ _ _
    refine ⟨⟨nofun, nofun, trivial, trivial⟩, ⟨nofun, nofun, trivial, trivial⟩, ?_, ?_⟩
    · intro z
      simp [put, elems]
    · left
      rfl
  | node v l r ihl ihr =>
    intro hok hki hpi hbst hheap
    obtain ⟨hbl, hbr, hbstl, hbstr⟩ := hbst
    obtain ⟨hhl, hhr, hheapl, hheapr⟩ := hheap
    have hvmem : v ∈ elems (node v l r) := mem_elems_node.mpr (Or.inr (Or.inl rfl))
    have hokv : okElem v := hok v hvmem
    have hokl : ∀ y ∈ elems l, okElem y :=
      fun y hy => hok y (mem_elems_node.mpr (Or.inl hy))
    have hokr : ∀ y ∈ elems r, okElem y :=
      fun y hy => hok y (mem_elems_node.mpr (Or.inr (Or.inr hy)))
    by_cases h1 : tipEq x v
    · -- duplicate: the tree is returned unchanged
      have hvx : v = x := hki v hvmem (keyA_eq_of_tipEq h1).symm
      have hres : (put (node v l r) x).1 = node v l r := by
        rw [put, if_pos h1]
      refine ⟨?_, ?_, ?_, ?_⟩
      · rw [hres]; exact ⟨hbl, hbr, hbstl, hbstr⟩
      · rw [hres]; exact ⟨hhl, hhr, hheapl, hheapr⟩
      · intro z
        rw [hres]
        constructor
        · exact fun h => Or.inl h
        · rintro (h | rfl)
          · exact h
          · exact hvx ▸ hvmem
      · right; rw [hres]
    · by_cases h2 : gorTip x v
      · -- descend into the left child
        have hkxv : keyA x < keyA v :=
          of_decide_eq_true ((gorTip_eq_keyA hokx hokv) ▸ h2)
        obtain ⟨hbst1, hheap1, helems1, hroot1⟩ := ihl hokl
          (fun y hy h => hki y (mem_elems_node.mpr (Or.inl hy)) h)
          (fun y hy h => hpi y (mem_elems_node.mpr (Or.inl hy)) h)
          hbstl hheapl
        obtain ⟨m, a, b, hshape⟩ := put_fst_shape l x
        rcases hpl : put l x with ⟨l1, insl⟩
        rw [hpl] at hshape hbst1 hheap1 helems1 hroot1
        simp only at hshape hbst1 hheap1 helems1 hroot1
        subst hshape
        obtain ⟨hba, hbb, hbsta, hbstb⟩ := hbst1
        obtain ⟨hha, hhb, hheapa, hheapb⟩ := hheap1
        have hmmem : m ∈ elems (node m a b) := mem_elems_node.mpr (Or.inr (Or.inl rfl))
        have hokm : okElem m := by
          rcases (helems1 m).mp hmmem with h | h
          · exact hokl m h
          · exact h ▸ hokx
        have hok1 : ∀ z ∈ elems (node m a b), okElem z := by
          intro z hz
          rcases (helems1 z).mp hz with h | rfl
          · exact hokl z h
          · exact hokx
        have hkey1 : ∀ z ∈ elems (node m a b), keyA z < keyA v := by
          intro z hz
          rcases (helems1 z).mp hz with h | rfl
          · exact hbl z h
          · exact hkxv
        rw [put_node_left h1 h2 hpl]
        by_cases hrot : morTip v m
        · -- no rotation: node v (node m a b) r
          rw [if_pos hrot]
          have hvm : prA v < prA m :=
            of_decide_eq_true ((morTip_eq_prA hokv hokm) ▸ hrot)
          have hprall : ∀ z ∈ elems (node m a b), prA v < prA z := by
            intro z hz
            by_cases hzm : z = m
            · exact hzm ▸ hvm
            · exact lt_trans hvm (heap_root_lt ⟨hha, hhb, hheapa, hheapb⟩ z hz hzm)
          refine ⟨⟨hkey1, hbr, ⟨hba, hbb, hbsta, hbstb⟩, hbstr⟩,
            ⟨hprall, hhr, ⟨hha, hhb, hheapa, hheapb⟩, hheapr⟩, ?_, Or.inr rfl⟩
          intro z
          constructor
          · intro hz
            rcases mem_elems_node.mp hz with h | h | h
            · rcases (helems1 z).mp h with h0 | h0
              · exact Or.inl (mem_elems_node.mpr (Or.inl h0))
              · exact Or.inr h0
            · exact Or.inl (mem_elems_node.mpr (Or.inr (Or.inl h)))
            · exact Or.inl (mem_elems_node.mpr (Or.inr (Or.inr h)))
          · rintro (hz | rfl)
            · rcases mem_elems_node.mp hz with h | h | h
              · exact mem_elems_node.mpr
                  (Or.inl ((helems1 z).mpr (Or.inl h)))
              · exact mem_elems_node.mpr (Or.inr (Or.inl h))
              · exact mem_elems_node.mpr (Or.inr (Or.inr h))
            · exact mem_elems_node.mpr (Or.inl ((helems1 z).mpr (Or.inr rfl)))
        · -- rotation: node m a (node v b r), and the new root must be x
          rw [if_neg hrot]
          have hvm : ¬ prA v < prA m := by
            intro h
            exact hrot (by rw [morTip_eq_prA hokv hokm]; exact decide_eq_true h)
          have hmx : m = x := by
            rcases hroot1 with h | h
            · simpa [rootD] using h
            · -- the old left root would satisfy the heap test, contradiction
              cases l with
              | leaf =>
                rw [put] at hpl
                simp only [Prod.mk.injEq] at hpl
                rcases hpl with ⟨hl1, _⟩
                injection hl1 with hm _ _
                exact hm.symm
              | node u la lb =>
                exfalso
                simp only [rootD, Option.some.injEq] at h
                exact hvm (h ▸ hhl u (mem_elems_node.mpr (Or.inr (Or.inl rfl))))
          have hmx2 : x = m := hmx.symm
          subst hmx2
          have hpxv : prA x < prA v := by
            rcases lt_or_eq_of_le (not_lt.mp hvm) with h | h
            · exact h
            · exact absurd (hpi v hvmem h.symm) (by
                intro h
                exact absurd (h ▸ hkxv) (lt_irrefl _))
          have hxnotb : x ∉ elems b := by
            intro hx
            exact absurd (hbb x hx) (lt_irrefl _)
          have hbmem : ∀ z ∈ elems b, z ∈ elems l := by
            intro z hz
            rcases (helems1 z).mp (mem_elems_node.mpr (Or.inr (Or.inr hz))) with h | rfl
            · exact h
            · exact absurd hz hxnotb
          refine ⟨?_, ?_, ?_, Or.inl rfl⟩
          · -- BST of node x a (node v b r)
            refine ⟨hba, ?_, hbsta, ⟨?_, hbr, hbstb, hbstr⟩⟩
            · intro z hz
              rcases mem_elems_node.mp hz with h | h | h
              · exact hbb z h
              · exact h ▸ hkxv
              · exact lt_trans hkxv (hbr z h)
            · intro z hz
              exact hbl z (hbmem z hz)
          · -- heap of node x a (node v b r)
            refine ⟨hha, ?_, hheapa, ⟨?_, hhr, hheapb, hheapr⟩⟩
            · intro z hz
              rcases mem_elems_node.mp hz with h | h | h
              · exact hhb z h
              · exact h ▸ hpxv
              · exact lt_trans hpxv (hhr z h)
            · intro z hz
              exact hhl z (hbmem z hz)
          · intro z
            constructor
            · intro hz
              rcases mem_elems_node.mp hz with h | h | h
              · rcases (helems1 z).mp (mem_elems_node.mpr (Or.inl h)) with h0 | h0
                · exact Or.inl (mem_elems_node.mpr (Or.inl h0))
                · exact Or.inr h0
              · exact Or.inr h
              · rcases mem_elems_node.mp h with h0 | h0 | h0
                · exact Or.inl (mem_elems_node.mpr (Or.inl (hbmem z h0)))
                · exact Or.inl (mem_elems_node.mpr (Or.inr (Or.inl h0)))
                · exact Or.inl (mem_elems_node.mpr (Or.inr (Or.inr h0)))
            · rintro (hz | rfl)
              · rcases mem_elems_node.mp hz with h | h | h
                · rcases (helems1 z).mpr (Or.inl h) with hz1
                  rcases mem_elems_node.mp hz1 with h0 | h0 | h0
                  · exact mem_elems_node.mpr (Or.inl h0)
                  · exact mem_elems_node.mpr (Or.inr (Or.inl h0))
                  · exact mem_elems_node.mpr
                      (Or.inr (Or.inr (mem_elems_node.mpr (Or.inl h0))))
                · exact mem_elems_node.mpr
                    (Or.inr (Or.inr (mem_elems_node.mpr (Or.inr (Or.inl h)))))
                · exact mem_elems_node.mpr
                    (Or.inr (Or.inr (mem_elems_node.mpr (Or.inr (Or.inr h)))))
              · exact mem_elems_node.mpr (Or.inr (Or.inl rfl))
      · -- descend into the right child
        have hkne : keyA v ≠ keyA x := by
          intro h
          have hvx : v = x := hki v hvmem h
          have : tipEq x v = true := by rw [hvx]; exact tipEq_of_eq rfl
          exact h1 this
        have hkvx : keyA v < keyA x := by
          rcases Nat.lt_trichotomy (keyA x) (keyA v) with h | h | h
          · exact absurd (by rw [gorTip_eq_keyA hokx hokv]; exact decide_eq_true h) h2
          · exact absurd h.symm hkne
          · exact h
        obtain ⟨hbst1, hheap1, helems1, hroot1⟩ := ihr hokr
          (fun y hy h => hki y (mem_elems_node.mpr (Or.inr (Or.inr hy))) h)
          (fun y hy h => hpi y (mem_elems_node.mpr (Or.inr (Or.inr hy))) h)
          hbstr hheapr
        obtain ⟨m, a, b, hshape⟩ := put_fst_shape r x
        rcases hpr2 : put r x with ⟨r1, insr⟩
        rw [hpr2] at hshape hbst1 hheap1 helems1 hroot1
        simp only at hshape hbst1 hheap1 helems1 hroot1
        subst hshape
        obtain ⟨hba, hbb, hbsta, hbstb⟩ := hbst1
        obtain ⟨hha, hhb, hheapa, hheapb⟩ := hheap1
        have hmmem : m ∈ elems (node m a b) := mem_elems_node.mpr (Or.inr (Or.inl rfl))
        have hokm : okElem m := by
          rcases (helems1 m).mp hmmem with h | h
          · exact hokr m h
          · exact h ▸ hokx
        have hkey1 : ∀ z ∈ elems (node m a b), keyA v < keyA z := by
          intro z hz
          rcases (helems1 z).mp hz with h | rfl
          · exact hbr z h
          · exact hkvx
        rw [put_node_right h1 h2 hpr2]
        by_cases hrot : morTip v m
        · -- no rotation: node v l (node m a b)
          rw [if_pos hrot]
          have hvm : prA v < prA m :=
            of_decide_eq_true ((morTip_eq_prA hokv hokm) ▸ hrot)
          have hprall : ∀ z ∈ elems (node m a b), prA v < prA z := by
            intro z hz
            by_cases hzm : z = m
            · exact hzm ▸ hvm
            · exact lt_trans hvm (heap_root_lt ⟨hha, hhb, hheapa, hheapb⟩ z hz hzm)
          refine ⟨⟨hbl, hkey1, hbstl, ⟨hba, hbb, hbsta, hbstb⟩⟩,
            ⟨hhl, hprall, hheapl, ⟨hha, hhb, hheapa, hheapb⟩⟩, ?_, Or.inr rfl⟩
          intro z
          constructor
          · intro hz
            rcases mem_elems_node.mp hz with h | h | h
            · exact Or.inl (mem_elems_node.mpr (Or.inl h))
            · exact Or.inl (mem_elems_node.mpr (Or.inr (Or.inl h)))
            · rcases (helems1 z).mp h with h0 | h0
              · exact Or.inl (mem_elems_node.mpr (Or.inr (Or.inr h0)))
              · exact Or.inr h0
          · rintro (hz | rfl)
            · rcases mem_elems_node.mp hz with h | h | h
              · exact mem_elems_node.mpr (Or.inl h)
              · exact mem_elems_node.mpr (Or.inr (Or.inl h))
              · exact mem_elems_node.mpr
                  (Or.inr (Or.inr ((helems1 z).mpr (Or.inl h))))
            · exact mem_elems_node.mpr
                (Or.inr (Or.inr ((helems1 z).mpr (Or.inr rfl))))
        · -- rotation: node m (node v l b) a, and the new root must be x
          rw [if_neg hrot]
          have hvm : ¬ prA v < prA m := by
            intro h
            exact hrot (by rw [morTip_eq_prA hokv hokm]; exact decide_eq_true h)
          have hmx : m = x := by
            rcases hroot1 with h | h
            · simpa [rootD] using h
            · cases r with
              | leaf =>
                rw [put] at hpr2
                simp only [Prod.mk.injEq] at hpr2
                rcases hpr2 with ⟨hl1, _⟩
                injection hl1 with hm _ _
                exact hm.symm
              | node u la lb =>
                exfalso
                simp only [rootD, Option.some.injEq] at h
                exact hvm (h ▸ hhr u (mem_elems_node.mpr (Or.inr (Or.inl rfl))))
          have hmx2 : x = m := hmx.symm
          subst hmx2
          have hpxv : prA x < prA v := by
            rcases lt_or_eq_of_le (not_lt.mp hvm) with h | h
            · exact h
            · exact absurd (hpi v hvmem h.symm) (by
                intro h
                exact absurd (h ▸ hkvx) (lt_irrefl _))
          have hxnota : x ∉ elems a := by
            intro hx
            exact absurd (hba x hx) (lt_irrefl _)
          have hamem : ∀ z ∈ elems a, z ∈ elems r := by
            intro z hz
            rcases (helems1 z).mp (mem_elems_node.mpr (Or.inl hz)) with h | rfl
            · exact h
            · exact absurd hz hxnota
          refine ⟨?_, ?_, ?_, Or.inl rfl⟩
          · -- BST of node x (node v l a) b
            refine ⟨?_, hbb, ⟨hbl, ?_, hbstl, hbsta⟩, hbstb⟩
            · intro z hz
              rcases mem_elems_node.mp hz with h | h | h
              · exact lt_trans (hbl z h) hkvx
              · exact h ▸ hkvx
              · exact hba z h
            · intro z hz
              exact hbr z (hamem z hz)
          · -- heap of node x (node v l a) b
            refine ⟨?_, hhb, ⟨hhl, ?_, hheapl, hheapa⟩, hheapb⟩
            · intro z hz
              rcases mem_elems_node.mp hz with h | h | h
              · exact lt_trans hpxv (hhl z h)
              · exact h ▸ hpxv
              · exact hha z h
            · intro z hz
              exact hhr z (hamem z hz)
          · intro z
            constructor
            · intro hz
              rcases mem_elems_node.mp hz with h | h | h
              · rcases mem_elems_node.mp h with h0 | h0 | h0
                · exact Or.inl (mem_elems_node.mpr (Or.inl h0))
                · exact Or.inl (mem_elems_node.mpr (Or.inr (Or.inl h0)))
                · exact Or.inl (mem_elems_node.mpr (Or.inr (Or.inr (hamem z h0))))
              · exact Or.inr h
              · rcases (helems1 z).mp (mem_elems_node.mpr (Or.inr (Or.inr h))) with h0 | h0
                · exact Or.inl (mem_elems_node.mpr (Or.inr (Or.inr h0)))
                · exact Or.inr h0
            · rintro (hz | rfl)
              · rcases mem_elems_node.mp hz with h | h | h
                · exact mem_elems_node.mpr
                    (Or.inl (mem_elems_node.mpr (Or.inl h)))
                · exact mem_elems_node.mpr
                    (Or.inl (mem_elems_node.mpr (Or.inr (Or.inl h))))
                · rcases mem_elems_node.mp ((helems1 z).mpr (Or.inl h)) with h0 | h0 | h0
                  · exact mem_elems_node.mpr
                      (Or.inl (mem_elems_node.mpr (Or.inr (Or.inr h0))))
                  · exact mem_elems_node.mpr (Or.inr (Or.inl h0))
                  · exact mem_elems_node.mpr (Or.inr (Or.inr h0))
              · exact mem_elems_node.mpr (Or.inr (Or.inl rfl))

/-- Invariants and element set of the insertion fold. -/
theorem ofList_fold_spec : ∀ (l : List α) (t : ZTree α),
    (∀ y ∈ elems t ++ l, okElem y) →
    (∀ y ∈ elems t ++ l, ∀ z ∈ elems t ++ l, keyA y = keyA z → y = z) →
    (∀ y ∈ elems t ++ l, ∀ z ∈ elems t ++ l, prA y = prA z → y = z) →
    IsBST t → IsHeap t →
    IsBST (l.foldl insertZ t) ∧ IsHeap (l.foldl insertZ t) ∧
    (∀ z, z ∈ elems (l.foldl insertZ t) ↔ z ∈ elems t ∨ z ∈ l) := by
  intro l
  induction l with
  | nil =>
    intro t _ _ _ hb hh
    refine ⟨hb, hh, fun z => ?_⟩
    simp
  | cons x xs ih =>
    intro t hok hkey hpr hb hh
    have hxmem : x ∈ elems t ++ x :: xs := by simp
    have hmemt : ∀ y ∈ elems t, y ∈ elems t ++ x :: xs := by
      intro y hy; simp [hy]
    obtain ⟨hb1, hh1, helems1, _⟩ := put_spec x (hok x hxmem) t
      (fun y hy => hok y (hmemt y hy))
      (fun y hy h => hkey y (hmemt y hy) x hxmem h)
      (fun y hy h => hpr y (hmemt y hy) x hxmem h)
      hb hh
    have htrans : ∀ y ∈ elems (insertZ t x) ++ xs, y ∈ elems t ++ x :: xs := by
      intro y hy
      rcases List.mem_append.mp hy with h | h
      · rcases (helems1 y).mp h with h0 | rfl
        · simp [h0]
        · simp
      · simp [h]
    obtain ⟨hb2, hh2, helems2⟩ := ih (insertZ t x)
      (fun y hy => hok y (htrans y hy))
      (fun y hy z hz h => hkey y (htrans y hy) z (htrans z hz) h)
      (fun y hy z hz h => hpr y (htrans y hy) z (htrans z hz) h)
      hb1 hh1
    refine ⟨hb2, hh2, fun z => ?_⟩
    rw [List.foldl_cons] at *
    rw [helems2 z]
    constructor
    · rintro (h | h)
      · rcases (helems1 z).mp h with h0 | rfl
        · exact Or.inl h0
        · exact Or.inr (by simp)
      · exact Or.inr (by simp [h])
    · rintro (h | h)
      · exact Or.inl ((helems1 z).mpr (Or.inl h))
      · rcases List.mem_cons.mp h with rfl | h0
        · exact Or.inl ((helems1 z).mpr (Or.inr rfl))
        · exact Or.inr h0

/-- A tree satisfying the strict BST and heap invariants is determined by
its element set. -/
theorem treap_unique : ∀ (t1 t2 : ZTree α),
    IsBST t1 → IsHeap t1 → IsBST t2 → IsHeap t2 →
    (∀ z, z ∈ elems t1 ↔ z ∈ elems t2) → t1 = t2 := by
  intro t1
  induction t1 with
  | leaf =>
    intro t2 _ _ _ _ hsame
    cases t2 with
    | leaf => rfl
    | node v2 l2 r2 =>
      have : v2 ∈ elems (leaf : ZTree α) :=
        (hsame v2).mpr (mem_elems_node.mpr (Or.inr (Or.inl rfl)))
      simp [elems] at this
  | node v1 l1 r1 ihl ihr =>
    intro t2 hb1 hh1 hb2 hh2 hsame
    cases t2 with
    | leaf =>
      have : v1 ∈ elems (leaf : ZTree α) :=
        (hsame v1).mp (mem_elems_node.mpr (Or.inr (Or.inl rfl)))
      simp [elems] at this
    | node v2 l2 r2 =>
      have hv1m2 : v1 ∈ elems (node v2 l2 r2) :=
        (hsame v1).mp (mem_elems_node.mpr (Or.inr (Or.inl rfl)))
      have hv2m1 : v2 ∈ elems (node v1 l1 r1) :=
        (hsame v2).mpr (mem_elems_node.mpr (Or.inr (Or.inl rfl)))
      have hveq : v1 = v2 := by
        by_contra hne
        have h12 : prA v2 < prA v1 := heap_root_lt hh2 v1 hv1m2 hne
        have h21 : prA v1 < prA v2 :=
          heap_root_lt hh1 v2 hv2m1 (fun h => hne h.symm)
        omega
      subst hveq
      obtain ⟨hbl1, hbr1, hbstl1, hbstr1⟩ := hb1
      obtain ⟨hbl2, hbr2, hbstl2, hbstr2⟩ := hb2
      obtain ⟨_, _, hheapl1, hheapr1⟩ := hh1
      obtain ⟨_, _, hheapl2, hheapr2⟩ := hh2
      have hsamel : ∀ z, z ∈ elems l1 ↔ z ∈ elems l2 := by
        intro z
        constructor
        · intro hz
          have hk : keyA z < keyA v1 := hbl1 z hz
          rcases mem_elems_node.mp ((hsame z).mp (mem_elems_node.mpr (Or.inl hz)))
            with h | rfl | h
          · exact h
          · omega
          · exact absurd (hbr2 z h) (by omega)
        · intro hz
          have hk : keyA z < keyA v1 := hbl2 z hz
          rcases mem_elems_node.mp ((hsame z).mpr (mem_elems_node.mpr (Or.inl hz)))
            with h | rfl | h
          · exact h
          · omega
          · exact absurd (hbr1 z h) (by omega)
      have hsamer : ∀ z, z ∈ elems r1 ↔ z ∈ elems r2 := by
        intro z
        constructor
        · intro hz
          have hk : keyA v1 < keyA z := hbr1 z hz
          rcases mem_elems_node.mp ((hsame z).mp (mem_elems_node.mpr (Or.inr (Or.inr hz))))
            with h | rfl | h
          · exact absurd (hbl2 z h) (by omega)
          · omega
          · exact h
        · intro hz
          have hk : keyA v1 < keyA z := hbr2 z hz
          rcases mem_elems_node.mp ((hsame z).mpr (mem_elems_node.mpr (Or.inr (Or.inr hz))))
            with h | rfl | h
          · exact absurd (hbl1 z h) (by omega)
          · omega
          · exact h
      rw [ihl l2 hbstl1 hheapl1 hbstl2 hheapl2 hsamel,
        ihr r2 hbstr1 hheapr1 hbstr2 hheapr2 hsamer]

/-- History independence of `ZSet::insert`: the tree built from a list
depends only on the set of elements, under digest distinctness. -/
theorem ofList_perm {l1 l2 : List α} (hperm : l1.Perm l2)
    (hok : ∀ y ∈ l1, okElem y)
    (hkey : ∀ y ∈ l1, ∀ z ∈ l1, keyA y = keyA z → y = z)
    (hpr : ∀ y ∈ l1, ∀ z ∈ l1, prA y = prA z → y = z) :
    ofList l1 = ofList l2 := by
  have hmem : ∀ y, y ∈ l2 ↔ y ∈ l1 := fun y => (hperm.mem_iff).symm
  have hok2 : ∀ y ∈ l2, okElem y := fun y hy => hok y ((hmem y).mp hy)
  have h1 := ofList_fold_spec l1 leaf
    (by simpa [elems] using hok)
    (by simpa [elems] using hkey)
    (by simpa [elems] using hpr)
    trivial trivial
  have h2 := ofList_fold_spec l2 leaf
    (by simpa [elems, hmem] using fun y hy => hok y ((hmem y).mp hy))
    (by
      simp only [elems, List.nil_append]
      exact fun y hy z hz h => hkey y ((hmem y).mp hy) z ((hmem z).mp hz) h)
    (by
      simp only [elems, List.nil_append]
      exact fun y hy z hz h => hpr y ((hmem y).mp hy) z ((hmem z).mp hz) h)
    trivial trivial
  exact treap_unique _ _ h1.1 h1.2.1 h2.1 h2.2.1 (by
    intro z
    simp only [ofList]
    rw [h1.2.2 z, h2.2.2 z]
    simp [elems, hmem z])

/-- Decidability of `okElem`, for concrete checks. -/
instance (x : α) : Decidable (okElem x) :=
  decidable_of_iff (keyA x < 2 ^ 320 ∧ prA x < 2 ^ 320) Iff.rfl

end ZTree

/-! ## Helper lemmas for the claims -/

theorem Noun.traverseChecked_of_bounded :
    ∀ n : Noun, n.boundedAtoms → n.traverseChecked = some n.traverse
  | .atom a, h => by
    have ha : a < W64 := h
    simp [traverseChecked, traverse, ha]
  | .cell l r, h => by
    obtain ⟨hl, hr⟩ := h
    simp [traverseChecked, traverse, traverseChecked_of_bounded l hl,
      traverseChecked_of_bounded r hr]

theorem Noun.traverseChecked_of_unbounded :
    ∀ n : Noun, ¬ n.boundedAtoms → n.traverseChecked = none
  | .atom a, h => by simp [traverseChecked]; simpa [boundedAtoms] using h
  | .cell l r, h => by
    have h2 : ¬ (l.boundedAtoms ∧ r.boundedAtoms) := h
    rw [Classical.not_and_iff_or_not_not] at h2
    rcases h2 with hl | hr
    · simp [traverseChecked, traverseChecked_of_unbounded l hl]
    · by_cases hb : l.boundedAtoms
      · simp [traverseChecked, traverseChecked_of_bounded l hb,
          traverseChecked_of_unbounded r hr]
      · simp [traverseChecked, traverseChecked_of_unbounded l hb]

/-! ## Transaction outputs (`crates/iris-nockchain-types/src/tx_engine/tx.rs`)

The `ZSet`/`ZMap` used by the iris transaction types live in `iris-ztd`,
whose `zset.rs`/`zmap.rs` are not under `src/`; the treap model above is
translated from the `rose-ztd` siblings that are, and `iris-ztd/src/hash.rs`
(which is under `src/`) confirms the two crates share the hashing layer. -/

/-- `LockRoot` (tx.rs): either a literal digest or a spend condition.
Every consumer reduces it to a digest: `Hashable` returns `d` for
`Hash(d)` and `l.hash()` for `Lock(l)`, and `NounEncode` encodes exactly
that digest.  The `Lock` arm therefore carries the digest its spend
condition hashes to. -/
inductive LockRoot where
  | hashD (d : Digest)
  | lockH (conditionHash : Digest)
  deriving DecidableEq, Repr

/-- `impl Hashable for LockRoot`. -/
def LockRoot.lrHash : LockRoot → Digest
  | .hashD d => d
  | .lockH h => h

instance : NEnc LockRoot := ⟨fun lr => toNoun lr.lrHash⟩

instance : Hsh LockRoot := ⟨LockRoot.lrHash⟩

/-- `NoteDataEntry` (note.rs): a short string key and a noun value. -/
structure NoteDataEntry where
  key : List Nat
  val : Noun
  deriving DecidableEq, Repr

/-- `impl NounEncode for NoteDataEntry` (derive): the `(key, val)` pair,
the key packed into one atom. -/
instance : NEnc NoteDataEntry :=
  ⟨fun e => .cell (.atom (strAtom e.key)) e.val⟩

/-- The local `hash_noun` of `NoteDataEntry::hash`: atoms hash as `u64`
belts, cells as hashed pairs.  (The Rust `try_into().unwrap()` aborts on
atoms of 2^64 or more; the library only ever stores bounded atoms here
and this claim never evaluates the hash, so the model is total.) -/
def ndHashNoun : Noun → Digest
  | .atom a => hashAtom a
  | .cell l r => hashPair (ndHashNoun l) (ndHashNoun r)

/-- `impl Hashable for NoteDataEntry`: `(key_str, hash_noun(val)).hash()`. -/
instance : Hsh NoteDataEntry :=
  ⟨fun e => hashPair (hashAtom (strAtom e.key)) (ndHashNoun e.val)⟩

/-- `NoteData` (note.rs): a vector of entries, encoded and hashed through
the content-addressed set built from them. -/
structure NoteData where
  entries : List NoteDataEntry
  deriving DecidableEq, Repr

/-- `impl NounEncode for NoteData`: `ZSet::from_iter(&entries).to_noun()`. -/
instance : NEnc NoteData :=
  ⟨fun nd => ZTree.zNoun (ZTree.ofList nd.entries)⟩

/-- `impl Hashable for NoteData`: `ZSet::from_iter(&entries).hash()`. -/
instance : Hsh NoteData :=
  ⟨fun nd => ZTree.zHash (ZTree.ofList nd.entries)⟩

/-- `Version` (note.rs). -/
inductive Version where
  | V0
  | V1
  | V2
  deriving DecidableEq, Repr

/-- `impl NounEncode for Version`: via `u32::from`. -/
instance : NEnc Version :=
  ⟨fun v => .atom (match v with | .V0 => 0 | .V1 => 1 | .V2 => 2)⟩

/-- `impl Hashable for Version`. -/
instance : Hsh Version :=
  ⟨fun v => hashAtom (match v with | .V0 => 0 | .V1 => 1 | .V2 => 2)⟩

/-- `Seed` (tx.rs).  `Nicks` is `u64`; gifts are naturals and the `u64`
sum is wrapped where the code adds them. -/
structure Seed where
  output_source : Option Source
  lock_root : LockRoot
  note_data : NoteData
  gift : Nat
  parent_hash : Digest
  deriving DecidableEq, Repr

/-- `impl NounEncode for Seed` (derive): the right-nested field tuple. -/
instance : NEnc Seed :=
  ⟨fun s => .cell (toNoun s.output_source) (.cell (toNoun s.lock_root)
    (.cell (toNoun s.note_data) (.cell (.atom s.gift) (toNoun s.parent_hash))))⟩

/-- `impl Hashable for Seed`: the manual impl omits `output_source`. -/
instance : Hsh Seed :=
  ⟨fun s => hashPair (hsh s.lock_root) (hashPair (hsh s.note_data)
    (hashPair (hashAtom s.gift) s.parent_hash))⟩

/-- `Spend` (tx.rs).  `outputs` reads only `seeds`; the witness is embedded
by its noun encoding and the fee is carried along. -/
structure Spend where
  witness : Noun
  seeds : List Seed
  fee : Nat

/-- `Note` (note.rs). -/
structure Note where
  version : Version
  origin_page : Nat
  name : Name
  note_data : NoteData
  assets : Nat
  deriving DecidableEq, Repr

/-- `RawTx` (tx.rs): `Spends` is a vector of named spends. -/
structure RawTx where
  version : Version
  id : Digest
  spends : List (Name × Spend)

/-- The derived `Ord` on `Digest(pub [Belt; 5])`: lexicographic on the five
belts.  This is the `BTreeMap<Digest, _>` key order. -/
def digLt (a b : Digest) : Bool :=
  decide (a.d0 < b.d0) || (decide (a.d0 = b.d0) &&
    (decide (a.d1 < b.d1) || (decide (a.d1 = b.d1) &&
      (decide (a.d2 < b.d2) || (decide (a.d2 = b.d2) &&
        (decide (a.d3 < b.d3) || (decide (a.d3 = b.d3) &&
          decide (a.d4 < b.d4))))))))

/-- `BTreeMap<Digest, ZSet<Seed>>` as an association list in strictly
ascending key order; `.entry(k).or_default().insert(s)` finds or creates
the slot for `k` and inserts `s` into its set. -/
def bmEntryInsert : List (Digest × ZTree Seed) → Digest → Seed →
    List (Digest × ZTree Seed)
  | [], k, s => [(k, ZTree.insertZ .leaf s)]
  | (k0, t0) :: rest, k, s =>
    if digLt k k0 then (k, ZTree.insertZ .leaf s) :: (k0, t0) :: rest
    else if k = k0 then (k0, ZTree.insertZ t0 s) :: rest
    else (k0, t0) :: bmEntryInsert rest k s

/-- The seeds of all spends in iteration order: the spends are first
rebuilt into a `ZMap` keyed by name (`ZMap::from_iter`, which drops a
spend whose name collides with an earlier one), iterated in tap order,
and each spend contributes its seed vector in order. -/
def spendSeedStream (spends : List (Name × Spend)) : List Seed :=
  (ZTree.tapList (ZMap.ofList spends)).flatMap (fun kv => kv.2.seeds)

/-- The grouping loop of `RawTx::outputs`: fold every streamed seed into
the `BTreeMap` slot of its lock-root hash. -/
def seedsByLockFrom (m : List (Digest × ZTree Seed)) (l : List Seed) :
    List (Digest × ZTree Seed) :=
  l.foldl (fun acc s => bmEntryInsert acc s.lock_root.lrHash s) m

/-- `seeds_by_lock` of `RawTx::outputs`. -/
def seedsByLock (spends : List (Name × Spend)) : List (Digest × ZTree Seed) :=
  seedsByLockFrom [] (spendSeedStream spends)

/-- The seed normalization inside `RawTx::outputs`:
`normalized_seed.output_source = None`. -/
def clearSource (s : Seed) : Seed := { s with output_source := none }

/-- The body of the output loop of `RawTx::outputs` for one group: skip an
empty group, otherwise build the V1 note with the summed gifts, the note
data of the last seed of the tap order, and the name derived from the
normalized seed set. -/
def groupNote (kv : Digest × ZTree Seed) : Option Note :=
  match ZTree.tapList kv.2 with
  | [] => none
  | s0 :: rest =>
    let seeds := s0 :: rest
    some { version := .V1
           origin_page := 0
           name := Name.newV1 kv.1
             (Source.mk (ZTree.zHash (ZTree.ofList (seeds.map clearSource))) false)
           note_data := (seeds.getLast (List.cons_ne_nil s0 rest)).note_data
           assets := seeds.foldl (fun a s => (a + s.gift) % W64) 0 }

/-- `RawTx::outputs`. -/
def RawTx.outputs (tx : RawTx) : List Note :=
  (seedsByLock tx.spends).filterMap groupNote

/-- A throwaway seed, used only as the default of the total `getLastD` in
the spec-side note below (never reached on a nonempty group). -/
def defaultSeed : Seed :=
  ⟨none, .hashD (Digest.mk 0 0 0 0 0), ⟨[]⟩, 0, Digest.mk 0 0 0 0 0⟩

/-- Modelled from the spec: the note the claim promises for one group — a
Version-V1 note whose assets are the (wrapping `u64`) sum of the gifts of
the group's seeds and whose note data is that of the LAST seed of the
group's tap order; origin page and name as the code computes them (the
claim does not constrain those fields). -/
def specNote (kv : Digest × ZTree Seed) : Note :=
  let seeds := ZTree.tapList kv.2
  { version := .V1
    origin_page := 0
    name := Name.newV1 kv.1
      (Source.mk (ZTree.zHash (ZTree.ofList (seeds.map clearSource))) false)
    note_data := (seeds.getLastD defaultSeed).note_data
    assets := seeds.foldl (fun a s => (a + s.gift) % W64) 0 }

/-! ### Supporting lemmas for the outputs claim -/

theorem ZTree.tipEq_symm {α : Type} [NEnc α] {x y : α} (h : tipEq x y = true) :
    tipEq y x = true := by
  simp only [tipEq, decide_eq_true_eq] at h ⊢
  exact h.symm

/-- `put` without any distinctness hypotheses: the result's elements are
among the old ones plus the new value, every old element survives (an
equal-tip insert drops the NEW value and keeps the old), and the result
holds some element tip-equal to the inserted one. -/
theorem ZTree.elems_put {α : Type} [NEnc α] (x : α) : ∀ t : ZTree α,
    (∀ z ∈ elems (put t x).1, z ∈ elems t ∨ z = x) ∧
    (∀ z ∈ elems t, z ∈ elems (put t x).1) ∧
    (∃ z', z' ∈ elems (put t x).1 ∧ tipEq z' x = true) := by
  intro t
  induction t with
  | leaf =>
    refine ⟨?_, ?_, ⟨x, ?_, tipEq_of_eq rfl⟩⟩
    · intro z hz
      simp only [put, elems, List.nil_append, List.mem_singleton] at hz
      exact Or.inr hz
    · intro z hz
      simp [elems] at hz
    · simp [put, elems]
  | node v l r ihl ihr =>
    by_cases h1 : tipEq x v
    · have hres : (put (node v l r) x).1 = node v l r := by rw [put, if_pos h1]
      rw [hres]
      exact ⟨fun z hz => Or.inl hz, fun z hz => hz,
        ⟨v, mem_elems_node.mpr (Or.inr (Or.inl rfl)), tipEq_symm h1⟩⟩
    · by_cases h2 : gorTip x v
      · obtain ⟨m, a, b, hshape⟩ := put_fst_shape l x
        rcases hpl : put l x with ⟨l1, insl⟩
        rw [hpl] at hshape
        simp only at hshape
        subst hshape
        rw [hpl] at ihl
        simp only at ihl
        obtain ⟨ihl1, ihl2, z', hz'mem, hz'tip⟩ := ihl
        rw [put_node_left h1 h2 hpl]
        by_cases hrot : morTip v m
        · rw [if_pos hrot]
          refine ⟨?_, ?_, ⟨z', mem_elems_node.mpr (Or.inl hz'mem), hz'tip⟩⟩
          · intro z hz
            rcases mem_elems_node.mp hz with h | h | h
            · rcases ihl1 z h with h' | h'
              · exact Or.inl (mem_elems_node.mpr (Or.inl h'))
              · exact Or.inr h'
            · exact Or.inl (mem_elems_node.mpr (Or.inr (Or.inl h)))
            · exact Or.inl (mem_elems_node.mpr (Or.inr (Or.inr h)))
          · intro z hz
            rcases mem_elems_node.mp hz with h | h | h
            · exact mem_elems_node.mpr (Or.inl (ihl2 z h))
            · exact mem_elems_node.mpr (Or.inr (Or.inl h))
            · exact mem_elems_node.mpr (Or.inr (Or.inr h))
        · rw [if_neg hrot]
          refine ⟨?_, ?_, ⟨z', ?_, hz'tip⟩⟩
          · intro z hz
            rcases mem_elems_node.mp hz with h | h | h
            · rcases ihl1 z (mem_elems_node.mpr (Or.inl h)) with h' | h'
              · exact Or.inl (mem_elems_node.mpr (Or.inl h'))
              · exact Or.inr h'
            · rcases ihl1 z (mem_elems_node.mpr (Or.inr (Or.inl h))) with h' | h'
              · exact Or.inl (mem_elems_node.mpr (Or.inl h'))
              · exact Or.inr h'
            · rcases mem_elems_node.mp h with h'' | h'' | h''
              · rcases ihl1 z (mem_elems_node.mpr (Or.inr (Or.inr h''))) with h' | h'
                · exact Or.inl (mem_elems_node.mpr (Or.inl h'))
                · exact Or.inr h'
              · exact Or.inl (mem_elems_node.mpr (Or.inr (Or.inl h'')))
              · exact Or.inl (mem_elems_node.mpr (Or.inr (Or.inr h'')))
          · intro z hz
            rcases mem_elems_node.mp hz with h | h | h
            · rcases mem_elems_node.mp (ihl2 z h) with h' | h' | h'
              · exact mem_elems_node.mpr (Or.inl h')
              · exact mem_elems_node.mpr (Or.inr (Or.inl h'))
              · exact mem_elems_node.mpr
                  (Or.inr (Or.inr (mem_elems_node.mpr (Or.inl h'))))
            · exact mem_elems_node.mpr
                (Or.inr (Or.inr (mem_elems_node.mpr (Or.inr (Or.inl h)))))
            · exact mem_elems_node.mpr
                (Or.inr (Or.inr (mem_elems_node.mpr (Or.inr (Or.inr h)))))
          · rcases mem_elems_node.mp hz'mem with h | h | h
            · exact mem_elems_node.mpr (Or.inl h)
            · exact mem_elems_node.mpr (Or.inr (Or.inl h))
            · exact mem_elems_node.mpr
                (Or.inr (Or.inr (mem_elems_node.mpr (Or.inl h))))
      · obtain ⟨m, a, b, hshape⟩ := put_fst_shape r x
        rcases hpr : put r x with ⟨r1, insr⟩
        rw [hpr] at hshape
        simp only at hshape
        subst hshape
        rw [hpr] at ihr
        simp only at ihr
        obtain ⟨ihr1, ihr2, z', hz'mem, hz'tip⟩ := ihr
        rw [put_node_right h1 h2 hpr]
        by_cases hrot : morTip v m
        · rw [if_pos hrot]
          refine ⟨?_, ?_,
            ⟨z', mem_elems_node.mpr (Or.inr (Or.inr hz'mem)), hz'tip⟩⟩
          · intro z hz
            rcases mem_elems_node.mp hz with h | h | h
            · exact Or.inl (mem_elems_node.mpr (Or.inl h))
            · exact Or.inl (mem_elems_node.mpr (Or.inr (Or.inl h)))
            · rcases ihr1 z h with h' | h'
              · exact Or.inl (mem_elems_node.mpr (Or.inr (Or.inr h')))
              · exact Or.inr h'
          · intro z hz
            rcases mem_elems_node.mp hz with h | h | h
            · exact mem_elems_node.mpr (Or.inl h)
            · exact mem_elems_node.mpr (Or.inr (Or.inl h))
            · exact mem_elems_node.mpr (Or.inr (Or.inr (ihr2 z h)))
        · rw [if_neg hrot]
          refine ⟨?_, ?_, ⟨z', ?_, hz'tip⟩⟩
          · intro z hz
            rcases mem_elems_node.mp hz with h | h | h
            · rcases mem_elems_node.mp h with h'' | h'' | h''
              · exact Or.inl (mem_elems_node.mpr (Or.inl h''))
              · exact Or.inl (mem_elems_node.mpr (Or.inr (Or.inl h'')))
              · rcases ihr1 z (mem_elems_node.mpr (Or.inl h'')) with h' | h'
                · exact Or.inl (mem_elems_node.mpr (Or.inr (Or.inr h')))
                · exact Or.inr h'
            · rcases ihr1 z (mem_elems_node.mpr (Or.inr (Or.inl h))) with h' | h'
              · exact Or.inl (mem_elems_node.mpr (Or.inr (Or.inr h')))
              · exact Or.inr h'
            · rcases ihr1 z (mem_elems_node.mpr (Or.inr (Or.inr h))) with h' | h'
              · exact Or.inl (mem_elems_node.mpr (Or.inr (Or.inr h')))
              · exact Or.inr h'
          · intro z hz
            rcases mem_elems_node.mp hz with h | h | h
            · exact mem_elems_node.mpr
                (Or.inl (mem_elems_node.mpr (Or.inl h)))
            · exact mem_elems_node.mpr
                (Or.inl (mem_elems_node.mpr (Or.inr (Or.inl h))))
            · rcases mem_elems_node.mp (ihr2 z h) with h' | h' | h'
              · exact mem_elems_node.mpr
                  (Or.inl (mem_elems_node.mpr (Or.inr (Or.inr h'))))
              · exact mem_elems_node.mpr (Or.inr (Or.inl h'))
              · exact mem_elems_node.mpr (Or.inr (Or.inr h'))
          · rcases mem_elems_node.mp hz'mem with h | h | h
            · exact mem_elems_node.mpr
                (Or.inl (mem_elems_node.mpr (Or.inr (Or.inr h))))
            · exact mem_elems_node.mpr (Or.inr (Or.inl h))
            · exact mem_elems_node.mpr (Or.inr (Or.inr h))

/-- `insertZ` never returns the empty slot. -/
theorem ZTree.insertZ_ne_leaf {α : Type} [NEnc α] (t : ZTree α) (x : α) :
    insertZ t x ≠ leaf := by
  obtain ⟨m, a, b, h⟩ := put_fst_shape t x
  rw [insertZ, h]
  exact nofun

theorem digLt_irrefl (a : Digest) : digLt a a = false := by
  simp [digLt]

theorem digLt_trans {a b c : Digest} (h1 : digLt a b = true)
    (h2 : digLt b c = true) : digLt a c = true := by
  simp only [digLt, Bool.or_eq_true, Bool.and_eq_true, decide_eq_true_eq]
    at h1 h2 ⊢
  omega

theorem digLt_total (a b : Digest) :
    digLt a b = true ∨ a = b ∨ digLt b a = true := by
  have hab : a = b ↔ (a.d0 = b.d0 ∧ a.d1 = b.d1 ∧ a.d2 = b.d2 ∧
      a.d3 = b.d3 ∧ a.d4 = b.d4) := by
    constructor
    · intro h
      subst h
      exact ⟨rfl, rfl, rfl, rfl, rfl⟩
    · rintro ⟨e0, e1, e2, e3, e4⟩
      cases a
      cases b
      simp_all
  simp only [digLt, Bool.or_eq_true, Bool.and_eq_true, decide_eq_true_eq, hab]
  omega

/-- Every slot of the updated map is an untouched old slot, or the slot for
`k` holding `s` freshly inserted into an empty or previously present set. -/
theorem bmEntryInsert_mem (k : Digest) (s : Seed) :
    ∀ m : List (Digest × ZTree Seed), ∀ kv ∈ bmEntryInsert m k s, kv ∈ m ∨
      (kv.1 = k ∧ ∃ t, (t = .leaf ∨ (k, t) ∈ m) ∧ kv.2 = ZTree.insertZ t s)
  | [], kv, hkv => by
    simp only [bmEntryInsert, List.mem_singleton] at hkv
    subst hkv
    exact Or.inr ⟨rfl, .leaf, Or.inl rfl, rfl⟩
  | (k0, t0) :: rest, kv, hkv => by
    simp only [bmEntryInsert] at hkv
    by_cases hlt : digLt k k0
    · rw [if_pos hlt] at hkv
      rcases List.mem_cons.mp hkv with rfl | h
      · exact Or.inr ⟨rfl, .leaf, Or.inl rfl, rfl⟩
      · exact Or.inl h
    · rw [if_neg hlt] at hkv
      by_cases heq : k = k0
      · rw [if_pos heq] at hkv
        rcases List.mem_cons.mp hkv with rfl | h
        · refine Or.inr ⟨heq.symm, t0, Or.inr ?_, rfl⟩
          rw [heq]
          exact List.mem_cons_self _ _
        · exact Or.inl (List.mem_cons_of_mem _ h)
      · rw [if_neg heq] at hkv
        rcases List.mem_cons.mp hkv with rfl | h
        · exact Or.inl (List.mem_cons_self _ _)
        · rcases bmEntryInsert_mem k s rest kv h with h' | h'
          · exact Or.inl (List.mem_cons_of_mem _ h')
          · exact Or.inr ⟨h'.1, h'.2.choose,
              h'.2.choose_spec.1.imp id (List.mem_cons_of_mem _),
              h'.2.choose_spec.2⟩

/-- The updated map holds, under key `k`, an element tip-equal to `s`. -/
theorem bmEntryInsert_cover (k : Digest) (s : Seed) :
    ∀ m : List (Digest × ZTree Seed), ∃ kv ∈ bmEntryInsert m k s,
      kv.1 = k ∧ ∃ s', s' ∈ ZTree.elems kv.2 ∧ ZTree.tipEq s' s = true
  | [] => by
    obtain ⟨_, _, ⟨z', hz', htip⟩⟩ := ZTree.elems_put s ZTree.leaf
    exact ⟨(k, ZTree.insertZ .leaf s), List.mem_singleton.mpr rfl, rfl,
      z', hz', htip⟩
  | (k0, t0) :: rest => by
    simp only [bmEntryInsert]
    by_cases hlt : digLt k k0
    · rw [if_pos hlt]
      obtain ⟨_, _, ⟨z', hz', htip⟩⟩ := ZTree.elems_put s ZTree.leaf
      exact ⟨(k, ZTree.insertZ .leaf s), List.mem_cons_self _ _, rfl,
        z', hz', htip⟩
    · rw [if_neg hlt]
      by_cases heq : k = k0
      · rw [if_pos heq]
        obtain ⟨_, _, ⟨z', hz', htip⟩⟩ := ZTree.elems_put s t0
        exact ⟨(k0, ZTree.insertZ t0 s), List.mem_cons_self _ _, heq.symm,
          z', hz', htip⟩
      · rw [if_neg heq]
        obtain ⟨kv, hkv, hk, hw⟩ := bmEntryInsert_cover k s rest
        exact ⟨kv, List.mem_cons_of_mem _ hkv, hk, hw⟩

/-- Updating one slot never shrinks any slot: every old slot has a slot
with the same key in the updated map whose set contains all its elements. -/
theorem bmEntryInsert_mono (k : Digest) (s : Seed) :
    ∀ m : List (Digest × ZTree Seed), ∀ kv ∈ m,
      ∃ kv' ∈ bmEntryInsert m k s, kv'.1 = kv.1 ∧
        ∀ z ∈ ZTree.elems kv.2, z ∈ ZTree.elems kv'.2
  | [], kv, hkv => absurd hkv (List.not_mem_nil kv)
  | (k0, t0) :: rest, kv, hkv => by
    simp only [bmEntryInsert]
    by_cases hlt : digLt k k0
    · rw [if_pos hlt]
      exact ⟨kv, List.mem_cons_of_mem _ hkv, rfl, fun z hz => hz⟩
    · rw [if_neg hlt]
      by_cases heq : k = k0
      · rw [if_pos heq]
        rcases List.mem_cons.mp hkv with rfl | hkv'
        · exact ⟨(k0, ZTree.insertZ t0 s), List.mem_cons_self _ _, rfl,
            (ZTree.elems_put s t0).2.1⟩
        · exact ⟨kv, List.mem_cons_of_mem _ hkv', rfl, fun z hz => hz⟩
      · rw [if_neg heq]
        rcases List.mem_cons.mp hkv with rfl | hkv'
        · exact ⟨(k0, t0), List.mem_cons_self _ _, rfl, fun z hz => hz⟩
        · obtain ⟨kv', hmem', hk, hsub⟩ := bmEntryInsert_mono k s rest kv hkv'
          exact ⟨kv', List.mem_cons_of_mem _ hmem', hk, hsub⟩

/-- The updated map stays strictly sorted by the derived digest order. -/
theorem bmEntryInsert_pairwise (k : Digest) (s : Seed) :
    ∀ m : List (Digest × ZTree Seed),
      m.Pairwise (fun p q => digLt p.1 q.1 = true) →
      (bmEntryInsert m k s).Pairwise (fun p q => digLt p.1 q.1 = true)
  | [], _ => List.pairwise_singleton _ _
  | (k0, t0) :: rest, hm => by
    obtain ⟨hhead, hrest⟩ := List.pairwise_cons.mp hm
    simp only [bmEntryInsert]
    by_cases hlt : digLt k k0
    · rw [if_pos hlt]
      refine List.pairwise_cons.mpr ⟨?_, hm⟩
      intro q hq
      rcases List.mem_cons.mp hq with rfl | hq'
      · exact hlt
      · exact digLt_trans hlt (hhead q hq')
    · rw [if_neg hlt]
      by_cases heq : k = k0
      · rw [if_pos heq]
        exact List.pairwise_cons.mpr ⟨hhead, hrest⟩
      · rw [if_neg heq]
        refine List.pairwise_cons.mpr ⟨?_, bmEntryInsert_pairwise k s rest hrest⟩
        intro q hq
        rcases bmEntryInsert_mem k s rest q hq with h | h
        · exact hhead q h
        · have hk0k : digLt k0 k = true := by
            rcases digLt_total k k0 with h' | h' | h'
            · exact absurd h' (by simp [hlt])
            · exact absurd h' heq
            · exact h'
          rw [h.1]
          exact hk0k

/-- Invariants of the grouping fold of `RawTx::outputs`, over any seed
stream: no slot is empty, every slot holds only seeds whose lock-root hash
is its key, the slots stay strictly sorted, every slot element comes from
an initial slot or the stream, every streamed seed has a slot keyed by its
lock-root hash holding a tip-equal element, and initial slots only grow. -/
theorem seedsByLockFrom_spec : ∀ (l : List Seed) (m : List (Digest × ZTree Seed)),
    (∀ kv ∈ m, kv.2 ≠ ZTree.leaf) →
    (∀ kv ∈ m, ∀ z ∈ ZTree.elems kv.2, z.lock_root.lrHash = kv.1) →
    m.Pairwise (fun p q => digLt p.1 q.1 = true) →
    (∀ kv ∈ seedsByLockFrom m l, kv.2 ≠ ZTree.leaf) ∧
    (∀ kv ∈ seedsByLockFrom m l, ∀ z ∈ ZTree.elems kv.2,
      z.lock_root.lrHash = kv.1) ∧
    (seedsByLockFrom m l).Pairwise (fun p q => digLt p.1 q.1 = true) ∧
    (∀ kv ∈ seedsByLockFrom m l, ∀ z ∈ ZTree.elems kv.2,
      (∃ kv0 ∈ m, z ∈ ZTree.elems kv0.2) ∨ z ∈ l) ∧
    (∀ s ∈ l, ∃ kv ∈ seedsByLockFrom m l, kv.1 = s.lock_root.lrHash ∧
      ∃ s', s' ∈ ZTree.elems kv.2 ∧ ZTree.tipEq s' s = true) ∧
    (∀ kv ∈ m, ∃ kv' ∈ seedsByLockFrom m l, kv'.1 = kv.1 ∧
      ∀ z ∈ ZTree.elems kv.2, z ∈ ZTree.elems kv'.2)
  | [], m, h1, h2, h3 => by
    refine ⟨h1, h2, h3, ?_, ?_, ?_⟩
    · intro kv hkv z hz
      exact Or.inl ⟨kv, hkv, hz⟩
    · intro s hs
      exact absurd hs (List.not_mem_nil s)
    · intro kv hkv
      exact ⟨kv, hkv, rfl, fun z hz => hz⟩
  | s :: l', m, h1, h2, h3 => by
    have hstep : seedsByLockFrom m (s :: l') =
        seedsByLockFrom (bmEntryInsert m s.lock_root.lrHash s) l' := rfl
    have h1' : ∀ kv ∈ bmEntryInsert m s.lock_root.lrHash s,
        kv.2 ≠ ZTree.leaf := by
      intro kv hkv
      rcases bmEntryInsert_mem _ _ m kv hkv with h | ⟨_, t, _, h⟩
      · exact h1 kv h
      · rw [h]
        exact ZTree.insertZ_ne_leaf t s
    have h2' : ∀ kv ∈ bmEntryInsert m s.lock_root.lrHash s,
        ∀ z ∈ ZTree.elems kv.2, z.lock_root.lrHash = kv.1 := by
      intro kv hkv z hz
      rcases bmEntryInsert_mem _ _ m kv hkv with h | ⟨hkk, t, ht, hins⟩
      · exact h2 kv h z hz
      · rw [hins] at hz
        rcases (ZTree.elems_put s t).1 z hz with h' | rfl
        · rcases ht with rfl | ht
          · simp [ZTree.elems] at h'
          · rw [hkk]
            exact h2 (s.lock_root.lrHash, t) ht z h'
        · rw [hkk]
    have h3' := bmEntryInsert_pairwise s.lock_root.lrHash s m h3
    obtain ⟨ih1, ih2, ih3, ih4, ih5, ih6⟩ :=
      seedsByLockFrom_spec l' (bmEntryInsert m s.lock_root.lrHash s) h1' h2' h3'
    rw [hstep]
    refine ⟨ih1, ih2, ih3, ?_, ?_, ?_⟩
    · intro kv hkv z hz
      rcases ih4 kv hkv z hz with ⟨kv0, hkv0, hz0⟩ | h
      · rcases bmEntryInsert_mem _ _ m kv0 hkv0 with h' | ⟨_, t, ht, hins⟩
        · exact Or.inl ⟨kv0, h', hz0⟩
        · rw [hins] at hz0
          rcases (ZTree.elems_put s t).1 z hz0 with h'' | rfl
          · rcases ht with rfl | ht
            · simp [ZTree.elems] at h''
            · exact Or.inl ⟨_, ht, h''⟩
          · exact Or.inr (List.mem_cons_self _ _)
      · exact Or.inr (List.mem_cons_of_mem _ h)
    · intro s2 hs
      rcases List.mem_cons.mp hs with rfl | hs'
      · obtain ⟨kv, hkv, hk1, s', hs', htip⟩ :=
          bmEntryInsert_cover s2.lock_root.lrHash s2 m
        obtain ⟨kv', hkv', hkeq, hsub⟩ := ih6 kv hkv
        exact ⟨kv', hkv', by rw [hkeq, hk1], s', hsub s' hs', htip⟩
      · exact ih5 s2 hs'
    · intro kv hkv
      obtain ⟨kv1, hkv1, hkeq1, hsub1⟩ :=
        bmEntryInsert_mono s.lock_root.lrHash s m kv hkv
      obtain ⟨kv2, hkv2, hkeq2, hsub2⟩ := ih6 kv1 hkv1
      exact ⟨kv2, hkv2, by rw [hkeq2, hkeq1], fun z hz => hsub2 z (hsub1 z hz)⟩

theorem getLast_eq_getLastD {α : Type} (l : List α) (h : l ≠ []) (d : α) :
    l.getLast h = l.getLastD d := by
  rw [List.getLastD_eq_getLast? d l, List.getLast?_eq_getLast l h]
  rfl

/-- On a nonempty group the loop body produces exactly the note promised by
the claim. -/
theorem groupNote_eq_specNote (kv : Digest × ZTree Seed)
    (h : kv.2 ≠ ZTree.leaf) : groupNote kv = some (specNote kv) := by
  obtain ⟨k, t⟩ := kv
  cases t with
  | leaf => exact absurd rfl h
  | node v a b =>
    obtain ⟨s0, rest, htap⟩ : ∃ s0 rest,
        ZTree.tapList (ZTree.node v a b) = s0 :: rest := by
      rw [ZTree.tapList_eq_dfsRL]
      exact ⟨v, _, rfl⟩
    simp only [groupNote, specNote, htap]
    rw [getLast_eq_getLastD (s0 :: rest) (List.cons_ne_nil s0 rest) defaultSeed]

/-- With no empty group, the output loop produces one note per group. -/
theorem filterMap_groupNote (m : List (Digest × ZTree Seed))
    (hne : ∀ kv ∈ m, kv.2 ≠ ZTree.leaf) :
    m.filterMap groupNote = m.map specNote := by
  induction m with
  | nil => rfl
  | cons kv rest ih =>
    have h1 := groupNote_eq_specNote kv (hne kv (List.mem_cons_self _ _))
    simp only [List.filterMap_cons, h1, List.map_cons]
    rw [ih (fun kv' h => hne kv' (List.mem_cons_of_mem _ h))]

/-- The wrapping `u64` sum of `Iterator::sum` as a fold. -/
theorem foldl_wrap_sum : ∀ (l : List Seed) (a : Nat),
    l.foldl (fun acc s => (acc + s.gift) % W64) (a % W64) =
      (a + (l.map Seed.gift).sum) % W64
  | [], a => by simp
  | s :: t, a => by
    simp only [List.foldl_cons, List.map_cons, List.sum_cons]
    have hstep : (a % W64 + s.gift) % W64 = (a + s.gift) % W64 := by
      simp only [W64]
      omega
    rw [hstep, foldl_wrap_sum t (a + s.gift), Nat.add_assoc]

/-- The asserted note's assets are the group's gift sum, wrapped to 64
bits. -/
theorem specNote_assets (kv : Digest × ZTree Seed) :
    (specNote kv).assets = ((ZTree.tapList kv.2).map Seed.gift).sum % W64 := by
  have h := foldl_wrap_sum (ZTree.tapList kv.2) 0
  rw [Nat.zero_mod, Nat.zero_add] at h
  simpa [specNote] using h

/-! ## The rose transaction builder
(`crates/rose-nockchain-types/src/tx_engine/builder.rs`)

The builder is translated from `builder.rs`, which is under `src/`.
Modelled from the spec: the rose `tx.rs` that defines the rose `Spend`
enum, `Witness`, `SpendCondition` and friends is not under `src/`; those
types follow spec section 4.6 and the iris siblings in
`crates/iris-nockchain-types/src/tx_engine/tx.rs`, with signature payloads
(public keys and signatures) embedded as opaque nouns — the builder never
inspects them, only counts and clears them.  The rose types live in the
`Rose` namespace to keep them apart from the iris `Spend`. -/

namespace Rose

/-- Wrapping `u64` addition. -/
def wadd (a b : Nat) : Nat := (a + b) % W64

/-- Wrapping `u64` subtraction. -/
def wsub (a b : Nat) : Nat := (a + (W64 - b % W64)) % W64

/-- Wrapping `u64` multiplication. -/
def wmul (a b : Nat) : Nat := (a * b) % W64

/-- Wrapping `u64` `Iterator::sum`. -/
def wsum (l : List Nat) : Nat := l.foldl wadd 0

/-- `Pkh`: an `m`-of-`hashes` multisignature condition. -/
structure Pkh where
  m : Nat
  hashes : List Digest
  deriving DecidableEq, Repr

/-- `Pkh::single`. -/
def Pkh.single (h : Digest) : Pkh := ⟨1, [h]⟩

/-- `impl NounEncode for Pkh`: `(m, ZSet::from_iter(&hashes)).to_noun()`. -/
instance : NEnc Pkh :=
  ⟨fun p => .cell (.atom p.m) (ZTree.zNoun (ZTree.ofList p.hashes))⟩

/-- `impl Hashable for Pkh`: `(m, ZSet::from_iter(&hashes)).hash()`. -/
instance : Hsh Pkh :=
  ⟨fun p => hashPair (hashAtom p.m) (ZTree.zHash (ZTree.ofList p.hashes))⟩

/-- `TimelockRange`. -/
structure TimelockRange where
  min : Option Nat
  max : Option Nat
  deriving DecidableEq, Repr

instance : NEnc TimelockRange :=
  ⟨fun t => .cell (toNoun t.min) (toNoun t.max)⟩

instance : Hsh TimelockRange :=
  ⟨fun t => hashPair (hsh t.min) (hsh t.max)⟩

/-- `LockTim`. -/
structure LockTim where
  rel : TimelockRange
  abs : TimelockRange
  deriving DecidableEq, Repr

instance : NEnc LockTim := ⟨fun t => .cell (toNoun t.rel) (toNoun t.abs)⟩

instance : Hsh LockTim := ⟨fun t => hashPair (hsh t.rel) (hsh t.abs)⟩

/-- `Hax`: the set of preimage digests that must be revealed. -/
structure Hax where
  hashes : List Digest
  deriving DecidableEq, Repr

instance : NEnc Hax := ⟨fun h => ZTree.zNoun (ZTree.ofList h.hashes)⟩

instance : Hsh Hax := ⟨fun h => ZTree.zHash (ZTree.ofList h.hashes)⟩

/-- The byte strings of the lock primitive tags, and of the `"lock"`
note-data key. -/
def pkhTag : List Nat := [112, 107, 104]

/-- The `"tim"` tag bytes. -/
def timTag : List Nat := [116, 105, 109]

/-- The `"hax"` tag bytes. -/
def haxTag : List Nat := [104, 97, 120]

/-- The `"brn"` tag bytes. -/
def brnTag : List Nat := [98, 114, 110]

/-- The `"lock"` note-data key bytes. -/
def lockKey : List Nat := [108, 111, 99, 107]

/-- `LockPrimitive`. -/
inductive LockPrimitive where
  | pkh (p : Pkh)
  | tim (t : LockTim)
  | hax (h : Hax)
  | brn
  deriving DecidableEq, Repr

/-- `impl NounEncode for LockPrimitive`: a tagged pair. -/
instance : NEnc LockPrimitive :=
  ⟨fun lp => match lp with
    | .pkh p => .cell (.atom (strAtom pkhTag)) (toNoun p)
    | .tim t => .cell (.atom (strAtom timTag)) (toNoun t)
    | .hax h => .cell (.atom (strAtom haxTag)) (toNoun h)
    | .brn => .cell (.atom (strAtom brnTag)) (.atom 0)⟩

/-- `impl Hashable for LockPrimitive`: the tagged pair's hash. -/
instance : Hsh LockPrimitive :=
  ⟨fun lp => match lp with
    | .pkh p => hashPair (hashAtom (strAtom pkhTag)) (hsh p)
    | .tim t => hashPair (hashAtom (strAtom timTag)) (hsh t)
    | .hax h => hashPair (hashAtom (strAtom haxTag)) (hsh h)
    | .brn => hashPair (hashAtom (strAtom brnTag)) (hashAtom 0)⟩

/-- `SpendCondition(pub Vec<LockPrimitive>)`. -/
structure SpendCondition where
  prims : List LockPrimitive
  deriving DecidableEq, Repr

instance : NEnc SpendCondition := ⟨fun sc => toNoun sc.prims⟩

instance : Hsh SpendCondition := ⟨fun sc => hashVec sc.prims⟩

/-- `SpendCondition::new_pkh`. -/
def SpendCondition.new_pkh (p : Pkh) : SpendCondition := ⟨[.pkh p]⟩

/-- `SpendCondition::pkh()`. -/
def SpendCondition.pkhs (sc : SpendCondition) : List Pkh :=
  sc.prims.filterMap (fun lp => match lp with | .pkh p => some p | _ => none)

/-- `SpendCondition::hax()`. -/
def SpendCondition.haxs (sc : SpendCondition) : List Hax :=
  sc.prims.filterMap (fun lp => match lp with | .hax h => some h | _ => none)

/-- `SpendCondition::brn()`. -/
def SpendCondition.brn (sc : SpendCondition) : Bool :=
  sc.prims.any (fun lp => match lp with | .brn => true | _ => false)

/-- `MerkleProof`. -/
structure MerkleProof where
  root : Digest
  path : List Digest
  deriving DecidableEq, Repr

instance : NEnc MerkleProof :=
  ⟨fun p => .cell (toNoun p.root) (toNoun p.path)⟩

/-- `LockMerkleProof`. -/
structure LockMerkleProof where
  spend_condition : SpendCondition
  axis : Nat
  proof : MerkleProof
  deriving DecidableEq, Repr

instance : NEnc LockMerkleProof :=
  ⟨fun p => .cell (toNoun p.spend_condition)
    (.cell (.atom p.axis) (toNoun p.proof))⟩

/-- The rose `Witness`: signature entries are `(signer pkh, payload)` with
the encoded `(public key, signature)` pair as an opaque payload noun. -/
structure Witness where
  lock_merkle_proof : LockMerkleProof
  pkh_signature : List (Digest × Noun)
  hax_map : ZTree (Digest × Noun)
  tim : Unit
  deriving DecidableEq, Repr

/-- `impl NounEncode for ()`. -/
instance : NEnc Unit := ⟨fun _ => .atom 0⟩

/-- `#[derive(NounEncode)] struct Witness` (the right-nested field tuple;
the signature list and the preimage map encode as `ZMap`s). -/
instance : NEnc Witness :=
  ⟨fun w => .cell (toNoun w.lock_merkle_proof)
    (.cell (ZMap.mNoun (ZMap.ofList w.pkh_signature))
      (.cell (ZMap.mNoun w.hax_map) (.atom 0)))⟩

/-- `Witness::new`. -/
def Witness.new (sc : SpendCondition) : Witness :=
  { lock_merkle_proof :=
      { spend_condition := sc
        axis := 1
        proof := { root := hsh sc, path := [] } }
    pkh_signature := []
    hax_map := .leaf
    tim := () }

/-- The legacy spend's signature: the builder only reads the signer hashes
and clears it. -/
structure LegacySig where
  signers : List Digest
  deriving DecidableEq, Repr

/-- The rose `Spend` enum: a witness spend or a legacy spend, each with
its seeds and fee portion. -/
inductive Spend where
  | witness (w : Witness) (seeds : List Seed) (fee : Nat)
  | legacy (sig : LegacySig) (seeds : List Seed) (fee : Nat)
  deriving DecidableEq, Repr

/-- `Spend::fee()`. -/
def Spend.fee : Spend → Nat
  | .witness _ _ f => f
  | .legacy _ _ f => f

/-- `Spend::seeds()`. -/
def Spend.seeds : Spend → List Seed
  | .witness _ s _ => s
  | .legacy _ s _ => s

/-- `*spend.fee_mut() = f`. -/
def Spend.setFee (sp : Spend) (f : Nat) : Spend :=
  match sp with
  | .witness w s _ => .witness w s f
  | .legacy g s _ => .legacy g s f

/-- `spend.seeds_mut()` replacement. -/
def Spend.setSeeds (sp : Spend) (seeds : List Seed) : Spend :=
  match sp with
  | .witness w _ f => .witness w seeds f
  | .legacy g _ f => .legacy g seeds f

/-- `Spend::clear_signatures`. -/
def Spend.clear_signatures : Spend → Spend
  | .witness w s f => .witness { w with pkh_signature := [] } s f
  | .legacy _ s f => .legacy ⟨[]⟩ s f

/-- `Spend::add_signature`: append the `(pkh, payload)` entry. -/
def Spend.add_signature (sp : Spend) (pkh : Digest) (payload : Noun) : Spend :=
  match sp with
  | .witness w s f =>
    .witness { w with pkh_signature := w.pkh_signature ++ [(pkh, payload)] } s f
  | .legacy g s f => .legacy ⟨g.signers ++ [pkh]⟩ s f

/-- `Seed::note_data_words()`: `noun_words(&self.note_data.to_noun())`. -/
def Seed.note_data_words (s : Seed) : Nat :=
  (toNoun s.note_data).words

/-- `Spend::calc_words`: summed seed note-data words, and the word count
of the witness encoding (of the signature for a legacy spend). -/
def Spend.calc_words (sp : Spend) : Nat × Nat :=
  ((sp.seeds.map Seed.note_data_words).sum,
    match sp with
    | .witness w _ _ => (toNoun (α := Witness) w).words
    | .legacy g _ _ => (toNoun g.signers).words)

/-- `Spend::unclamped_fee`: `(seed_words + witness_words) * per_word`,
with `u64` wrapping. -/
def Spend.unclamped_fee (sp : Spend) (per_word : Nat) : Nat :=
  wmul (wadd sp.calc_words.1 sp.calc_words.2) per_word

/-- `Spend::MIN_FEE`. -/
def MIN_FEE : Nat := 256

/-- `#[derive(Hashable)] struct Note` (right-nested field tuple). -/
instance : Hsh Note :=
  ⟨fun n => hashPair (hsh n.version) (hashPair (hashAtom n.origin_page)
    (hashPair (hsh n.name) (hashPair (hsh n.note_data) (hashAtom n.assets))))⟩

/-- `NoteData::empty`. -/
def ndEmpty : NoteData := ⟨[]⟩

/-- `NoteData::push_lock`: append a `("lock", (0, spend_condition))`
entry. -/
def ndPushLock (nd : NoteData) (sc : SpendCondition) : NoteData :=
  ⟨nd.entries ++ [⟨lockKey, .cell (.atom 0) (toNoun sc)⟩]⟩

/-- `SpendBuilder`. -/
structure SpendBuilder where
  note : Note
  spend : Spend
  spend_condition : SpendCondition
  refund_lock : Option SpendCondition
  deriving DecidableEq, Repr

/-- `SpendBuilder::new`: a V0 note gets an empty legacy spend, any other
version an empty witness spend. -/
def SpendBuilder.new (note : Note) (sc : SpendCondition)
    (rl : Option SpendCondition) : SpendBuilder :=
  { note := note
    spend := if note.version = Version.V0 then .legacy ⟨[]⟩ [] 0
      else .witness (Witness.new sc) [] 0
    spend_condition := sc
    refund_lock := rl }

/-- `SpendBuilder::invalidate_sigs`. -/
def SpendBuilder.invalidate_sigs (sb : SpendBuilder) : SpendBuilder :=
  { sb with spend := sb.spend.clear_signatures }

/-- `SpendBuilder::fee`: invalidate signatures if the portion changed,
then set it. -/
def SpendBuilder.feeSet (sb : SpendBuilder) (f : Nat) : SpendBuilder :=
  let sb1 := if sb.spend.fee ≠ f then sb.invalidate_sigs else sb
  { sb1 with spend := sb1.spend.setFee f }

/-- `SpendBuilder::cur_refund`: the seed whose lock-root hash is the
refund lock's hash. -/
def SpendBuilder.cur_refund (sb : SpendBuilder) : Option Seed :=
  match sb.refund_lock with
  | none => none
  | some rl => sb.spend.seeds.find?
      (fun v => decide (v.lock_root.lrHash = hsh rl))

/-- `SpendBuilder::is_balanced`: `assets == Σ gifts + fee` (`u64` sums). -/
def SpendBuilder.is_balanced (sb : SpendBuilder) : Bool :=
  decide (sb.note.assets =
    wadd (wsum (sb.spend.seeds.map Seed.gift)) sb.spend.fee)

/-- `SpendBuilder::build_seed`. -/
def SpendBuilder.build_seed (sb : SpendBuilder) (lock : SpendCondition)
    (gift : Nat) (ild : Bool) : Seed :=
  { output_source := none
    lock_root := .lockH (hsh lock)
    note_data := if ild then ndPushLock ndEmpty lock else ndEmpty
    gift := gift
    parent_hash := hsh sb.note }

/-- `SpendBuilder::compute_refund`: drop the old refund seed, recompute
the refund as `assets - fee - Σ remaining gifts` (wrapping `u64`), and
prepend a fresh refund seed when it is positive. -/
def SpendBuilder.compute_refund (sb : SpendBuilder) (ild : Bool) :
    SpendBuilder :=
  match sb.refund_lock with
  | none => sb
  | some rl =>
    let sb1 := sb.invalidate_sigs
    let seeds1 := sb1.spend.seeds.filter
      (fun v => !(decide (v.lock_root.lrHash = hsh rl)))
    let refund := wsub (wsub sb1.note.assets sb1.spend.fee)
      (wsum (seeds1.map Seed.gift))
    if refund > 0 then
      let seed := sb1.build_seed rl refund ild
      { sb1 with spend := sb1.spend.setSeeds (seed :: seeds1) }
    else
      { sb1 with spend := sb1.spend.setSeeds seeds1 }

/-- `SpendBuilder::seed`: invalidate signatures and push the seed. -/
def SpendBuilder.seedPush (sb : SpendBuilder) (s : Seed) : SpendBuilder :=
  let sb1 := sb.invalidate_sigs
  { sb1 with spend := sb1.spend.setSeeds (sb1.spend.seeds ++ [s]) }

/-- Sorted-dedup insertion for the `BTreeSet<Digest>` model. -/
def dinsert (d : Digest) : List Digest → List Digest
  | [] => [d]
  | x :: rest =>
    if digLt d x then d :: x :: rest
    else if d = x then x :: rest
    else x :: dinsert d rest

/-- `BTreeSet<Digest>` from an iterator: sorted, deduplicated. -/
def setOfD (l : List Digest) : List Digest :=
  l.foldl (fun acc d => dinsert d acc) []

/-- `MissingUnlocks`. -/
inductive MissingUnlocks where
  | pkhM (num_sigs : Nat) (sig_of : List Digest)
  | haxM (preimages_for : List Digest)
  | brn
  deriving DecidableEq, Repr

/-- The signer hashes already present on the spend. -/
def Spend.presentSigs : Spend → List Digest
  | .witness w _ _ => setOfD (w.pkh_signature.map Prod.fst)
  | .legacy g _ _ => setOfD g.signers

/-- `SpendBuilder::missing_unlocks`: unmet pkh thresholds, missing hax
preimages, then burn. -/
def SpendBuilder.missing_unlocks (sb : SpendBuilder) : List MissingUnlocks :=
  let present := sb.spend.presentSigs
  let pkhList := sb.spend_condition.pkhs.filterMap (fun p =>
    let valid := setOfD p.hashes
    let checked := valid.filter (fun d => decide (d ∈ present))
    if checked.length < p.m then
      some (.pkhM (p.m - checked.length)
        (valid.filter (fun d => !(decide (d ∈ checked)))))
    else none)
  let current := match sb.spend with
    | .witness w _ _ => setOfD ((ZTree.tapList w.hax_map).map Prod.fst)
    | .legacy _ _ _ => []
  let haxList := sb.spend_condition.haxs.filterMap (fun h =>
    let valid := setOfD h.hashes
    let checked := valid.filter (fun d => decide (d ∈ current))
    let pre := valid.filter (fun d => !(decide (d ∈ checked)))
    if pre.isEmpty then none else some (.haxM pre))
  pkhList ++ haxList ++ (if sb.spend_condition.brn then [.brn] else [])

/-- `SpendBuilder::unclamped_fee`: the spend's word fee plus the
`35 * num_sigs * fee_per_word` heuristic per unmet pkh threshold. -/
def SpendBuilder.unclamped_fee (sb : SpendBuilder) (fpw : Nat) : Nat :=
  sb.missing_unlocks.foldl (fun f mu =>
    match mu with
    | .pkhM n _ => wadd f (wmul (wmul 35 n) fpw)
    | _ => f) (sb.spend.unclamped_fee fpw)

/-- The builder's view of a signing key: the hash of its public key and
the opaque encoded `(public key, signature)` entry it contributes. -/
structure PrivateKey where
  pkh : Digest
  payload : Noun
  deriving DecidableEq, Repr

/-- `SpendBuilder::sign`: if any pkh primitive lists the key's hash, add
the signature entry. -/
def SpendBuilder.sign (sb : SpendBuilder) (k : PrivateKey) :
    SpendBuilder × Bool :=
  if sb.spend_condition.pkhs.any (fun p => decide (k.pkh ∈ p.hashes)) then
    ({ sb with spend := sb.spend.add_signature k.pkh k.payload }, true)
  else (sb, false)

/-- `SpendBuilder::add_preimage` (with the preimage's digest computed by
the caller): record the preimage if some hax primitive wants it and the
spend carries a witness. -/
def SpendBuilder.add_preimage (sb : SpendBuilder) (digest : Digest)
    (preimage : Noun) : SpendBuilder × Option Digest :=
  if sb.spend_condition.haxs.any (fun h => decide (digest ∈ h.hashes)) then
    match sb.spend with
    | .witness w s f =>
      let w2 : Witness := { w with hax_map := ZMap.insertKV w.hax_map digest preimage }
      ({ sb with spend := .witness w2 s f }, some digest)
    | .legacy _ _ _ => (sb, none)
  else (sb, none)

/-- The derived `Ord` on `Name`: lexicographic on `(first, last, _sig)`. -/
def nameLt (a b : Name) : Bool :=
  digLt a.first b.first || (decide (a.first = b.first) &&
    (digLt a.last b.last || (decide (a.last = b.last) &&
      decide (a.sigMark < b.sigMark))))

/-- `BTreeMap<Name, SpendBuilder>::insert`, on the sorted association
list; returns the replaced entry. -/
def nmInsert : List (Name × SpendBuilder) → Name → SpendBuilder →
    List (Name × SpendBuilder) × Option SpendBuilder
  | [], n, sb => ([(n, sb)], none)
  | (n0, sb0) :: rest, n, sb =>
    if nameLt n n0 then ((n, sb) :: (n0, sb0) :: rest, none)
    else if n = n0 then ((n0, sb) :: rest, some sb0)
    else
      let r := nmInsert rest n sb
      ((n0, sb0) :: r.1, r.2)

/-- `BTreeMap<Name, SpendBuilder>::remove`. -/
def nmRemove : List (Name × SpendBuilder) → Name →
    List (Name × SpendBuilder) × Option SpendBuilder
  | [], _ => ([], none)
  | (n0, sb0) :: rest, n =>
    if n = n0 then (rest, some sb0)
    else
      let r := nmRemove rest n
      ((n0, sb0) :: r.1, r.2)

/-- `TxBuilder`. -/
structure TxBuilder where
  spends : List (Name × SpendBuilder)
  fee_pool : List SpendBuilder
  fee_per_word : Nat
  deriving DecidableEq, Repr

/-- `TxBuilder::new`. -/
def TxBuilder.new (fpw : Nat) : TxBuilder := ⟨[], [], fpw⟩

/-- `TxBuilder::spend`: insert keyed by the note's name. -/
def TxBuilder.spendIns (st : TxBuilder) (sb : SpendBuilder) : TxBuilder :=
  { st with spends := (nmInsert st.spends sb.note.name sb).1 }

/-- `TxBuilder::cur_fee`: the (`u64`-wrapping) sum of the spend fees. -/
def TxBuilder.cur_fee (st : TxBuilder) : Nat :=
  wsum (st.spends.map (fun kv => kv.2.spend.fee))

/-- `TxBuilder::calc_fee`: summed unclamped fees, clamped to `MIN_FEE`. -/
def TxBuilder.calc_fee (st : TxBuilder) : Nat :=
  max (wsum (st.spends.map (fun kv => kv.2.unclamped_fee st.fee_per_word)))
    MIN_FEE

/-- Stable insertion: place `x` after every already-placed `y` with
`le y x`. -/
def insSorted {α : Type} (le : α → α → Bool) (x : α) : List α → List α
  | [] => [x]
  | y :: rest => if le y x then y :: insSorted le x rest else x :: y :: rest

/-- A stable sort (insertion sort).  `Vec::sort_by` is a stable sort, and
for a total comparator any two stable sorts agree. -/
def stableSort {α : Type} (le : α → α → Bool) (l : List α) : List α :=
  l.foldl (fun acc x => insSorted le x acc) []

/-- `Ordering` comparison of naturals. -/
def natCmp (a b : Nat) : Ordering :=
  if a < b then .lt else if b < a then .gt else .eq

/-- `Ordering` comparison of booleans (`false < true`). -/
def boolCmp (a b : Bool) : Ordering :=
  if a = b then .eq else if a then .gt else .lt

/-- `Ordering` comparison of names via the derived `Ord`. -/
def nameCmp (a b : Name) : Ordering :=
  if nameLt a b then .lt else if nameLt b a then .gt else .eq

/-- A spend's assets minus its current refund (`u64` subtraction). -/
def nonRefundAssets (sb : SpendBuilder) : Nat :=
  wsub sb.note.assets (match sb.cur_refund with
    | some v => v.gift
    | none => 0)

/-- The comparator of the fee-increase branch: greatest non-refund assets
first, then highest fee, then descending name. -/
def cmpInc (a b : SpendBuilder) : Ordering :=
  let anra := nonRefundAssets a
  let bnra := nonRefundAssets b
  if anra ≠ bnra then natCmp bnra anra
  else if b.spend.fee ≠ a.spend.fee then natCmp b.spend.fee a.spend.fee
  else nameCmp b.note.name a.note.name

/-- The comparator of the fee-decrease branch: refund-only spends first,
then lowest fee, then lowest non-refund assets, then descending name. -/
def cmpDec (a b : SpendBuilder) : Ordering :=
  let anra := nonRefundAssets a
  let bnra := nonRefundAssets b
  let aor := decide (a.spend.seeds.length = 1) && a.cur_refund.isSome
  let bor := decide (b.spend.seeds.length = 1) && b.cur_refund.isSome
  if aor ≠ bor then boolCmp bor aor
  else if a.spend.fee ≠ b.spend.fee then natCmp a.spend.fee b.spend.fee
  else if anra ≠ bnra then natCmp anra bnra
  else nameCmp b.note.name a.note.name

/-- One spend of the fee-increase loop: consume up to `fee_left` from the
refund seed, rebalance, and trim the target when the refund seed vanished
(`adjust_fee`). -/
def incStep (adjust ild : Bool) (fpw : Nat)
    (acc : List (Name × SpendBuilder) × Nat) (kv : Name × SpendBuilder) :
    List (Name × SpendBuilder) × Nat :=
  match kv.2.cur_refund with
  | none => acc
  | some rs =>
    let words := Seed.note_data_words rs
    let sub := min rs.gift acc.2
    if sub > 0 then
      let s1 := kv.2.feeSet (wadd kv.2.spend.fee sub)
      let fl1 := acc.2 - sub
      let s2 := s1.compute_refund ild
      let fl2 := if adjust && s2.cur_refund.isNone
        then fl1 - min fl1 (wmul words fpw) else fl1
      ((nmInsert acc.1 kv.1 s2).1, fl2)
    else acc

/-- The fee-pool loop of the increase branch, on the reversed
assets-sorted pool (`Vec::pop` takes the greatest).  `none` models the
`expect("Fee pool entry must have refund")` abort. -/
def poolLoop (adjust ild : Bool) (fpw : Nat) :
    List SpendBuilder → List (Name × SpendBuilder) → Nat →
    Option (List (Name × SpendBuilder) × List SpendBuilder × Nat)
  | [], m, fl => some (m, [], fl)
  | r :: rest, m, fl =>
    if fl = 0 then some (m, r :: rest, fl)
    else
      let r1 := r.compute_refund ild
      match r1.cur_refund with
      | none => none
      | some rs =>
        let fl1 := if adjust then wadd fl (r1.unclamped_fee fpw) else fl
        let sub := min rs.gift fl1
        let r2 := if sub > 0
          then (r1.feeSet (wadd r1.spend.fee sub)).compute_refund ild
          else r1
        poolLoop adjust ild fpw rest ((nmInsert m r2.note.name r2).1)
          (fl1 - sub)

/-- One spend of the fee-decrease loop: move up to `refund_left` from the
fee back into the refund, and mark fully-returned spends for the pool. -/
def decStep (ild : Bool) (fpw : Nat)
    (acc : List (Name × SpendBuilder) × List Name × Nat)
    (kv : Name × SpendBuilder) :
    List (Name × SpendBuilder) × List Name × Nat :=
  if kv.2.refund_lock.isSome then
    let add := min kv.2.spend.fee acc.2.2
    let s1 := if add > 0
      then (kv.2.feeSet (kv.2.spend.fee - add)).compute_refund ild
      else kv.2
    let rl1 := acc.2.2 - add
    if s1.spend.fee = add then
      ((nmInsert acc.1 kv.1 s1).1, acc.2.1 ++ [s1.note.name],
        rl1 - s1.unclamped_fee fpw)
    else
      ((nmInsert acc.1 kv.1 s1).1, acc.2.1, rl1)
  else acc

/-- Move the marked spends out of the map into the fee pool; `none`
models the `unwrap` abort on a missing name. -/
def namesToPool : List (Name × SpendBuilder) → List SpendBuilder →
    List Name → Option (List (Name × SpendBuilder) × List SpendBuilder)
  | m, pool, [] => some (m, pool)
  | m, pool, n :: rest =>
    match nmRemove m n with
    | (_, none) => none
    | (m1, some sb) => namesToPool m1 (pool ++ [sb]) rest

/-- `TxBuilder::set_fee_and_balance_refund`.  `none` models both the
error returns and the fee-pool `expect`/`unwrap` aborts. -/
def TxBuilder.set_fee_and_balance_refund (st : TxBuilder) (fee : Nat)
    (adjust ild : Bool) : Option TxBuilder :=
  let cur := st.cur_fee
  if cur = fee then some st
  else if cur < fee then
    let sorted := stableSort
      (fun a b => decide (cmpInc a.2 b.2 ≠ Ordering.gt)) st.spends
    let step1 := sorted.foldl (incStep adjust ild st.fee_per_word)
      (st.spends, fee - cur)
    let spool := stableSort
      (fun a b => decide (a.note.assets ≤ b.note.assets)) st.fee_pool
    match poolLoop adjust ild st.fee_per_word spool.reverse step1.1 step1.2 with
    | none => none
    | some (m2, rrem, fl2) =>
      if fl2 > 0 then none
      else some { st with spends := m2, fee_pool := rrem.reverse }
  else
    let sorted := stableSort
      (fun a b => decide (cmpDec a.2 b.2 ≠ Ordering.gt)) st.spends
    let step1 := sorted.foldl (decStep ild st.fee_per_word)
      (st.spends, [], cur - fee)
    match namesToPool step1.1 st.fee_pool step1.2.1 with
    | none => none
    | some (m2, pool2) =>
      if step1.2.2 > 0 then none
      else some { st with spends := m2, fee_pool := pool2 }

/-- `TxBuilder::recalc_and_set_fee`. -/
def TxBuilder.recalc_and_set_fee (st : TxBuilder) (ild : Bool) :
    Option TxBuilder :=
  st.set_fee_and_balance_refund st.calc_fee true ild

/-- The note loop of `simple_spend_base`; `none` models the
`assert!(spend.is_balanced())` abort. -/
def ssbLoop (rl : SpendCondition) (recipient : Digest) (ild : Bool) :
    List (Note × SpendCondition) → TxBuilder → Nat →
    Option (TxBuilder × Nat)
  | [], st, remaining => some (st, remaining)
  | (note, sc) :: rest, st, remaining =>
    let gp := min remaining note.assets
    let sb0 := SpendBuilder.new note sc (some rl)
    if gp > 0 then
      let seed := sb0.build_seed
        (SpendCondition.new_pkh (Pkh.single recipient)) gp ild
      let sb1 := (sb0.seedPush seed).compute_refund ild
      if sb1.is_balanced then
        ssbLoop rl recipient ild rest (st.spendIns sb1) (remaining - gp)
      else none
    else
      let sb1 := sb0.compute_refund ild
      if sb1.is_balanced then
        ssbLoop rl recipient ild rest
          { st with fee_pool := st.fee_pool ++ [sb1] } (remaining - gp)
      else none

/-- `TxBuilder::simple_spend_base`. -/
def TxBuilder.simple_spend_base (st : TxBuilder)
    (notes : List (Note × SpendCondition)) (recipient : Digest)
    (gift : Nat) (refundPkh : Digest) (ild : Bool) : Option TxBuilder :=
  if gift = 0 then none
  else
    let rl := SpendCondition.new_pkh (Pkh.single refundPkh)
    match ssbLoop rl recipient ild notes st gift with
    | none => none
    | some (st1, remaining) => if remaining > 0 then none else some st1

/-- `TxBuilder::simple_spend`. -/
def TxBuilder.simple_spend (st : TxBuilder)
    (notes : List (Note × SpendCondition)) (recipient : Digest)
    (gift : Nat) (refundPkh : Digest) (ild : Bool) : Option TxBuilder :=
  (st.simple_spend_base notes recipient gift refundPkh ild).bind
    (fun st1 => st1.recalc_and_set_fee ild)

/-- `TxBuilder::sign`: sign every spend that lists the key. -/
def TxBuilder.sign (st : TxBuilder) (k : PrivateKey) : TxBuilder :=
  { st with spends := st.spends.map (fun kv => (kv.1, (kv.2.sign k).1)) }

/-- `TxBuilder::add_preimage`; `none` models the `preimage.hash()` abort
on an oversized atom (only reachable when some spend exists to hash
against). -/
def TxBuilder.add_preimage (st : TxBuilder) (preimage : Noun) :
    Option (TxBuilder × Option Digest) :=
  if st.spends.isEmpty then some (st, none)
  else
    match preimage.hashChecked with
    | none => none
    | some digest =>
      let res := st.spends.foldl (fun acc kv =>
        (acc.1 ++ [(kv.1, (kv.2.add_preimage digest preimage).1)],
          if (kv.2.add_preimage digest preimage).2.isSome
            then (kv.2.add_preimage digest preimage).2 else acc.2))
        ([], none)
      some ({ st with spends := res.1 }, res.2)

/-- `TxBuilder::validate`: fee sufficiency, balance, and unlock checks;
read-only. -/
def TxBuilder.validate (st : TxBuilder) : Option TxBuilder :=
  if st.cur_fee < st.calc_fee then none
  else if st.spends.any (fun kv => !kv.2.is_balanced) then none
  else if !(st.spends.flatMap (fun kv => kv.2.missing_unlocks)).isEmpty
  then none
  else some st

/-! ### The builder balance invariant (towards claim C1) -/

/-- Every active spend is balanced and its note's assets fit a `u64`
(structurally true in Rust, where `assets: Nicks` is a `u64`). -/
def SpendsOk (m : List (Name × SpendBuilder)) : Prop :=
  ∀ kv ∈ m, kv.2.is_balanced = true ∧ kv.2.note.assets < W64

/-- Fee-pool entries' assets fit a `u64`. -/
def PoolOk (pool : List SpendBuilder) : Prop :=
  ∀ sb ∈ pool, sb.note.assets < W64

/-- The builder invariant of claim C1. -/
def INV (st : TxBuilder) : Prop := SpendsOk st.spends ∧ PoolOk st.fee_pool

theorem clear_signatures_fee (sp : Spend) :
    sp.clear_signatures.fee = sp.fee := by
  cases sp <;> rfl

theorem clear_signatures_seeds (sp : Spend) :
    sp.clear_signatures.seeds = sp.seeds := by
  cases sp <;> rfl

theorem setFee_fee (sp : Spend) (f : Nat) : (sp.setFee f).fee = f := by
  cases sp <;> rfl

theorem setFee_seeds (sp : Spend) (f : Nat) :
    (sp.setFee f).seeds = sp.seeds := by
  cases sp <;> rfl

theorem setSeeds_fee (sp : Spend) (s : List Seed) :
    (sp.setSeeds s).fee = sp.fee := by
  cases sp <;> rfl

theorem setSeeds_seeds (sp : Spend) (s : List Seed) :
    (sp.setSeeds s).seeds = s := by
  cases sp <;> rfl

theorem add_signature_fee (sp : Spend) (pk : Digest) (pl : Noun) :
    (sp.add_signature pk pl).fee = sp.fee := by
  cases sp <;> rfl

theorem add_signature_seeds (sp : Spend) (pk : Digest) (pl : Noun) :
    (sp.add_signature pk pl).seeds = sp.seeds := by
  cases sp <;> rfl

theorem invalidate_note (sb : SpendBuilder) :
    sb.invalidate_sigs.note = sb.note := rfl

theorem invalidate_refund_lock (sb : SpendBuilder) :
    sb.invalidate_sigs.refund_lock = sb.refund_lock := rfl

theorem feeSet_note (sb : SpendBuilder) (f : Nat) :
    (sb.feeSet f).note = sb.note := by
  unfold SpendBuilder.feeSet
  split <;> rfl

theorem feeSet_refund_lock (sb : SpendBuilder) (f : Nat) :
    (sb.feeSet f).refund_lock = sb.refund_lock := by
  unfold SpendBuilder.feeSet
  split <;> rfl

theorem compute_refund_note (sb : SpendBuilder) (ild : Bool) :
    (sb.compute_refund ild).note = sb.note := by
  unfold SpendBuilder.compute_refund
  cases sb.refund_lock with
  | none => rfl
  | some rl =>
    dsimp only
    split <;> rfl

theorem compute_refund_refund_lock (sb : SpendBuilder) (ild : Bool) :
    (sb.compute_refund ild).refund_lock = sb.refund_lock := by
  unfold SpendBuilder.compute_refund
  cases h : sb.refund_lock with
  | none => exact h
  | some rl =>
    dsimp only
    split <;> exact h

theorem cur_refund_isSome_refund_lock {sb : SpendBuilder} {s : Seed}
    (h : sb.cur_refund = some s) : ∃ rl, sb.refund_lock = some rl := by
  unfold SpendBuilder.cur_refund at h
  cases hrl : sb.refund_lock with
  | none => rw [hrl] at h; exact absurd h (by simp)
  | some rl => exact ⟨rl, rfl⟩

/-- `u64`-wrapping fold of addition is the wrapped plain sum. -/
theorem wadd_foldl : ∀ (l : List Nat) (a : Nat),
    l.foldl wadd (a % W64) = (a + l.sum) % W64
  | [], a => by simp
  | x :: t, a => by
    simp only [List.foldl_cons, List.sum_cons]
    have h1 : wadd (a % W64) x = (a + x) % W64 := by
      simp only [wadd, W64]
      omega
    rw [h1, wadd_foldl t (a + x), Nat.add_assoc]

theorem wsum_eq (l : List Nat) : wsum l = l.sum % W64 := by
  have h := wadd_foldl l 0
  rw [Nat.zero_mod, Nat.zero_add] at h
  exact h

/-- The heart of the balance invariant: whenever a refund lock is present
and the note's assets fit a `u64`, `compute_refund` leaves the spend
balanced — the refund is defined as exactly the residue closing the
(`u64`-wrapping) balance equation, and the builder checks balance with the
same wrapping sums. -/
theorem compute_refund_balanced (sb : SpendBuilder) (ild : Bool)
    (rl : SpendCondition) (hrl : sb.refund_lock = some rl)
    (ha : sb.note.assets < W64) :
    (sb.compute_refund ild).is_balanced = true := by
  unfold SpendBuilder.compute_refund
  rw [hrl]
  dsimp only
  simp only [W64] at ha
  split
  all_goals
    rename_i hre
    simp only [SpendBuilder.is_balanced, SpendBuilder.invalidate_sigs,
      setSeeds_seeds, setSeeds_fee, clear_signatures_fee,
      clear_signatures_seeds, SpendBuilder.build_seed, List.map_cons,
      decide_eq_true_eq, wsum_eq, List.sum_cons] at hre ⊢
    simp only [wsub, wadd, W64] at hre ⊢
    omega

theorem mem_insSorted {α : Type} (le : α → α → Bool) (x : α) :
    ∀ (l : List α) (y : α), y ∈ insSorted le x l → y = x ∨ y ∈ l
  | [], y, h => Or.inl (List.mem_singleton.mp h)
  | z :: rest, y, h => by
    by_cases hle : le z x
    · rw [insSorted, if_pos hle] at h
      rcases List.mem_cons.mp h with rfl | h2
      · exact Or.inr (List.mem_cons_self _ _)
      · rcases mem_insSorted le x rest y h2 with h3 | h3
        · exact Or.inl h3
        · exact Or.inr (List.mem_cons_of_mem _ h3)
    · rw [insSorted, if_neg hle] at h
      rcases List.mem_cons.mp h with rfl | h2
      · exact Or.inl rfl
      · exact Or.inr h2

theorem mem_stableSort_aux {α : Type} (le : α → α → Bool) :
    ∀ (l acc : List α) (y : α),
      y ∈ l.foldl (fun a x => insSorted le x a) acc → y ∈ acc ∨ y ∈ l
  | [], _, _, h => Or.inl h
  | x :: rest, acc, y, h => by
    rcases mem_stableSort_aux le rest (insSorted le x acc) y h with h1 | h1
    · rcases mem_insSorted le x acc y h1 with rfl | h2
      · exact Or.inr (List.mem_cons_self _ _)
      · exact Or.inl h2
    · exact Or.inr (List.mem_cons_of_mem _ h1)

theorem mem_stableSort {α : Type} (le : α → α → Bool) (l : List α) (y : α)
    (h : y ∈ stableSort le l) : y ∈ l := by
  rcases mem_stableSort_aux le l [] y h with h1 | h1
  · exact absurd h1 (List.not_mem_nil y)
  · exact h1

theorem nmInsert_mem : ∀ (m : List (Name × SpendBuilder)) (n : Name)
    (sb : SpendBuilder) (kv), kv ∈ (nmInsert m n sb).1 →
      kv ∈ m ∨ kv = (n, sb)
  | [], n, sb, kv, h => Or.inr (List.mem_singleton.mp h)
  | (n0, sb0) :: rest, n, sb, kv, h => by
    simp only [nmInsert] at h
    split at h
    · rcases List.mem_cons.mp h with rfl | h2
      · exact Or.inr rfl
      · exact Or.inl h2
    · split at h
      · rename_i heq
        rcases List.mem_cons.mp h with rfl | h2
        · exact Or.inr (by rw [heq])
        · exact Or.inl (List.mem_cons_of_mem _ h2)
      · rcases List.mem_cons.mp h with rfl | h2
        · exact Or.inl (List.mem_cons_self _ _)
        · rcases nmInsert_mem rest n sb kv h2 with h3 | h3
          · exact Or.inl (List.mem_cons_of_mem _ h3)
          · exact Or.inr h3

theorem nmRemove_mem : ∀ (m : List (Name × SpendBuilder)) (n : Name) (kv),
    kv ∈ (nmRemove m n).1 → kv ∈ m
  | [], _, _, h => absurd h (List.not_mem_nil _)
  | (n0, sb0) :: rest, n, kv, h => by
    simp only [nmRemove] at h
    split at h
    · exact List.mem_cons_of_mem _ h
    · rcases List.mem_cons.mp h with rfl | h2
      · exact List.mem_cons_self _ _
      · exact List.mem_cons_of_mem _ (nmRemove_mem rest n kv h2)

theorem nmRemove_removed : ∀ (m : List (Name × SpendBuilder)) (n : Name)
    (sb : SpendBuilder), (nmRemove m n).2 = some sb → ∃ n0, (n0, sb) ∈ m
  | [], _, _, h => absurd h (by simp [nmRemove])
  | (n0, sb0) :: rest, n, sb, h => by
    simp only [nmRemove] at h
    split at h
    · cases h
      exact ⟨n0, List.mem_cons_self _ _⟩
    · obtain ⟨n1, h1⟩ := nmRemove_removed rest n sb h
      exact ⟨n1, List.mem_cons_of_mem _ h1⟩

/-- The fee-increase loop keeps every active spend balanced. -/
theorem incStep_SpendsOk (adjust ild : Bool) (fpw : Nat) :
    ∀ (l : List (Name × SpendBuilder))
      (acc : List (Name × SpendBuilder) × Nat),
      SpendsOk acc.1 → (∀ kv ∈ l, kv.2.note.assets < W64) →
      SpendsOk (l.foldl (incStep adjust ild fpw) acc).1
  | [], _, hm, _ => hm
  | kv :: rest, acc, hm, hl => by
    refine incStep_SpendsOk adjust ild fpw rest _ ?_
      (fun kv' h => hl kv' (List.mem_cons_of_mem _ h))
    unfold incStep
    cases hcr : kv.2.cur_refund with
    | none => exact hm
    | some rs =>
      dsimp only
      split
      · intro kv' hkv'
        rcases nmInsert_mem _ _ _ kv' hkv' with h | rfl
        · exact hm kv' h
        · obtain ⟨rl, hrl⟩ := cur_refund_isSome_refund_lock hcr
          have hassets : kv.2.note.assets < W64 :=
            hl kv (List.mem_cons_self _ _)
          refine ⟨?_, ?_⟩
          · apply compute_refund_balanced _ _ rl
            · rw [feeSet_refund_lock]
              exact hrl
            · rw [feeSet_note]
              exact hassets
          · rw [compute_refund_note, feeSet_note]
            exact hassets
      · exact hm

/-- The fee-pool loop keeps every active spend balanced and pool assets
bounded. -/
theorem poolLoop_SpendsOk (adjust ild : Bool) (fpw : Nat) :
    ∀ (rpool : List SpendBuilder) (m : List (Name × SpendBuilder))
      (fl : Nat) res, SpendsOk m → (∀ r ∈ rpool, r.note.assets < W64) →
      poolLoop adjust ild fpw rpool m fl = some res →
      SpendsOk res.1 ∧ ∀ r ∈ res.2.1, r.note.assets < W64
  | [], m, fl, res, hm, _, h => by
    cases h
    exact ⟨hm, fun r hr => absurd hr (List.not_mem_nil r)⟩
  | r :: rest, m, fl, res, hm, hp, h => by
    rw [poolLoop] at h
    split at h
    · cases h
      exact ⟨hm, hp⟩
    · dsimp only at h
      rcases hcr : (r.compute_refund ild).cur_refund with _ | rs
      · rw [hcr] at h
        exact absurd h (by simp)
      · rw [hcr] at h
        dsimp only at h
        refine poolLoop_SpendsOk adjust ild fpw rest _ _ res ?_
          (fun r' hr' => hp r' (List.mem_cons_of_mem _ hr')) h
        intro kv' hkv'
        rcases nmInsert_mem _ _ _ kv' hkv' with h2 | rfl
        · exact hm kv' h2
        · have hassets : r.note.assets < W64 := hp r (List.mem_cons_self _ _)
          obtain ⟨rl1, hrl1⟩ := cur_refund_isSome_refund_lock hcr
          have hrl : r.refund_lock = some rl1 := by
            rw [← compute_refund_refund_lock r ild]
            exact hrl1
          have h1good : (r.compute_refund ild).is_balanced = true ∧
              (r.compute_refund ild).note.assets < W64 :=
            ⟨compute_refund_balanced r ild rl1 hrl hassets, by
              rw [compute_refund_note]
              exact hassets⟩
          have h2good : ∀ f : Nat,
              (((r.compute_refund ild).feeSet f).compute_refund ild).is_balanced = true ∧
              (((r.compute_refund ild).feeSet f).compute_refund ild).note.assets < W64 := by
            intro f
            constructor
            · apply compute_refund_balanced _ _ rl1
              · rw [feeSet_refund_lock, compute_refund_refund_lock]
                exact hrl
              · rw [feeSet_note, compute_refund_note]
                exact hassets
            · rw [compute_refund_note, feeSet_note, compute_refund_note]
              exact hassets
          dsimp only
          constructor
          · repeat' split
            all_goals first
              | exact (h2good _).1
              | exact h1good.1
          · repeat' split
            all_goals first
              | exact (h2good _).2
              | exact h1good.2

/-- The fee-decrease loop keeps every active spend balanced. -/
theorem decStep_SpendsOk (ild : Bool) (fpw : Nat) :
    ∀ (l : List (Name × SpendBuilder))
      (acc : List (Name × SpendBuilder) × List Name × Nat),
      SpendsOk acc.1 → (∀ kv ∈ l, kv.2.is_balanced = true ∧
        kv.2.note.assets < W64) →
      SpendsOk (l.foldl (decStep ild fpw) acc).1
  | [], _, hm, _ => hm
  | kv :: rest, acc, hm, hl => by
    refine decStep_SpendsOk ild fpw rest _ ?_
      (fun kv' h => hl kv' (List.mem_cons_of_mem _ h))
    unfold decStep
    split
    · rename_i hrl0
      obtain ⟨rl, hrl⟩ := Option.isSome_iff_exists.mp hrl0
      rcases hl kv (List.mem_cons_self _ _) with ⟨hbal, hassets⟩
      have hgood :
          ((kv.2.feeSet (kv.2.spend.fee - min kv.2.spend.fee acc.2.2)).compute_refund ild).is_balanced = true ∧
          ((kv.2.feeSet (kv.2.spend.fee - min kv.2.spend.fee acc.2.2)).compute_refund ild).note.assets < W64 := by
        constructor
        · apply compute_refund_balanced _ _ rl
          · rw [feeSet_refund_lock]
            exact hrl
          · rw [feeSet_note]
            exact hassets
        · rw [compute_refund_note, feeSet_note]
          exact hassets
      dsimp only
      split <;> split
      all_goals
        intro kv' hkv'
        rcases nmInsert_mem _ _ _ kv' hkv' with h2 | rfl
        · exact hm kv' h2
        · first
          | exact hgood
          | exact ⟨hbal, hassets⟩
    · exact hm

/-- Returning spends to the pool keeps the invariant. -/
theorem namesToPool_ok : ∀ (names : List Name)
    (m : List (Name × SpendBuilder)) (pool : List SpendBuilder) res,
    SpendsOk m → PoolOk pool → namesToPool m pool names = some res →
    SpendsOk res.1 ∧ PoolOk res.2
  | [], m, pool, res, hm, hp, h => by
    cases h
    exact ⟨hm, hp⟩
  | n :: rest, m, pool, res, hm, hp, h => by
    rw [namesToPool] at h
    rcases hrem : nmRemove m n with ⟨m1, o⟩
    rw [hrem] at h
    cases o with
    | none => exact absurd h (by simp)
    | some sb =>
      dsimp only at h
      refine namesToPool_ok rest m1 (pool ++ [sb]) res ?_ ?_ h
      · intro kv hkv
        exact hm kv (by
          have := nmRemove_mem m n kv
          rw [hrem] at this
          exact this hkv)
      · intro r hr
        rcases List.mem_append.mp hr with h1 | h1
        · exact hp r h1
        · obtain ⟨n0, hmem⟩ := by
            have := nmRemove_removed m n r
            rw [hrem] at this
            exact this (List.mem_singleton.mp h1 ▸ rfl)
          exact (hm (n0, r) hmem).2

/-- `set_fee_and_balance_refund` preserves the builder invariant. -/
theorem setFee_INV (st : TxBuilder) (fee : Nat) (adjust ild : Bool)
    (hinv : INV st) :
    ∀ st', st.set_fee_and_balance_refund fee adjust ild = some st' →
      INV st' := by
  intro st' h
  obtain ⟨hsp, hpool⟩ := hinv
  unfold TxBuilder.set_fee_and_balance_refund at h
  dsimp only at h
  split at h
  · cases h
    exact ⟨hsp, hpool⟩
  · split at h
    · -- increase branch
      rcases hres : poolLoop adjust ild st.fee_per_word
          (stableSort (fun a b => decide (a.note.assets ≤ b.note.assets))
            st.fee_pool).reverse
          ((stableSort (fun a b => decide (cmpInc a.2 b.2 ≠ Ordering.gt))
              st.spends).foldl (incStep adjust ild st.fee_per_word)
            (st.spends, fee - st.cur_fee)).1
          ((stableSort (fun a b => decide (cmpInc a.2 b.2 ≠ Ordering.gt))
              st.spends).foldl (incStep adjust ild st.fee_per_word)
            (st.spends, fee - st.cur_fee)).2
        with _ | res2
      · rw [hres] at h
        exact absurd h (by simp)
      · rw [hres] at h
        have hstep : SpendsOk ((stableSort
            (fun a b => decide (cmpInc a.2 b.2 ≠ Ordering.gt))
            st.spends).foldl (incStep adjust ild st.fee_per_word)
            (st.spends, fee - st.cur_fee)).1 :=
          incStep_SpendsOk adjust ild st.fee_per_word _ _ hsp
            (fun kv hkv => (hsp kv (mem_stableSort _ _ kv hkv)).2)
        have hpl := poolLoop_SpendsOk adjust ild st.fee_per_word _ _ _ res2
          hstep
          (fun r hr => hpool r (mem_stableSort _ _ r
            (List.mem_reverse.mp hr)))
          hres
        dsimp only at h
        split at h
        · exact absurd h (by simp)
        · cases h
          refine ⟨hpl.1, ?_⟩
          intro r hr
          exact hpl.2 r (List.mem_reverse.mp hr)
    · -- decrease branch
      rcases hres : namesToPool
          ((stableSort (fun a b => decide (cmpDec a.2 b.2 ≠ Ordering.gt))
              st.spends).foldl (decStep ild st.fee_per_word)
            (st.spends, [], st.cur_fee - fee)).1
          st.fee_pool
          ((stableSort (fun a b => decide (cmpDec a.2 b.2 ≠ Ordering.gt))
              st.spends).foldl (decStep ild st.fee_per_word)
            (st.spends, [], st.cur_fee - fee)).2.1
        with _ | res2
      · rw [hres] at h
        exact absurd h (by simp)
      · rw [hres] at h
        have hstep : SpendsOk ((stableSort
            (fun a b => decide (cmpDec a.2 b.2 ≠ Ordering.gt))
            st.spends).foldl (decStep ild st.fee_per_word)
            (st.spends, [], st.cur_fee - fee)).1 :=
          decStep_SpendsOk ild st.fee_per_word _ _ hsp
            (fun kv hkv => hsp kv (mem_stableSort _ _ kv hkv))
        have hnp := namesToPool_ok _ _ _ res2 hstep hpool hres
        dsimp only at h
        split at h
        · exact absurd h (by simp)
        · cases h
          exact ⟨hnp.1, hnp.2⟩

/-- `recalc_and_set_fee` preserves the builder invariant. -/
theorem recalc_INV (st : TxBuilder) (ild : Bool) (hinv : INV st) :
    ∀ st', st.recalc_and_set_fee ild = some st' → INV st' :=
  setFee_INV st st.calc_fee true ild hinv

theorem seedPush_note (sb : SpendBuilder) (s : Seed) :
    (sb.seedPush s).note = sb.note := rfl

/-- The `simple_spend_base` note loop preserves the invariant: the
`assert!(is_balanced())` guard establishes balance for every spend it
adds. -/
theorem ssbLoop_INV (rl : SpendCondition) (recipient : Digest)
    (ild : Bool) :
    ∀ (notes : List (Note × SpendCondition)) (st : TxBuilder) (rem : Nat)
      res, INV st → (∀ p ∈ notes, p.1.assets < W64) →
      ssbLoop rl recipient ild notes st rem = some res → INV res.1
  | [], st, rem, res, hinv, _, h => by
    cases h
    exact hinv
  | (note, sc) :: rest, st, rem, res, hinv, hn, h => by
    rw [ssbLoop] at h
    have hna : note.assets < W64 := hn (note, sc) (List.mem_cons_self _ _)
    split at h
    all_goals dsimp only at h
    · split at h
      · rename_i hbal
        refine ssbLoop_INV rl recipient ild rest _ _ res ?_
          (fun p hp => hn p (List.mem_cons_of_mem _ hp)) h
        obtain ⟨hsp, hpool⟩ := hinv
        refine ⟨?_, hpool⟩
        intro kv hkv
        rcases nmInsert_mem _ _ _ kv hkv with h2 | rfl
        · exact hsp kv h2
        · refine ⟨hbal, ?_⟩
          rw [compute_refund_note, seedPush_note]
          exact hna
      · exact absurd h (by simp)
    · split at h
      · refine ssbLoop_INV rl recipient ild rest _ _ res ?_
          (fun p hp => hn p (List.mem_cons_of_mem _ hp)) h
        obtain ⟨hsp, hpool⟩ := hinv
        refine ⟨hsp, ?_⟩
        intro r hr
        rcases List.mem_append.mp hr with h1 | h1
        · exact hpool r h1
        · rw [List.mem_singleton.mp h1, compute_refund_note]
          exact hna
      · exact absurd h (by simp)

/-- `simple_spend_base` preserves the builder invariant. -/
theorem ssb_INV (st : TxBuilder) (notes : List (Note × SpendCondition))
    (recipient : Digest) (gift : Nat) (refundPkh : Digest) (ild : Bool)
    (hinv : INV st) (hn : ∀ p ∈ notes, p.1.assets < W64) :
    ∀ st', st.simple_spend_base notes recipient gift refundPkh ild =
      some st' → INV st' := by
  intro st' h
  unfold TxBuilder.simple_spend_base at h
  split at h
  · exact absurd h (by simp)
  · dsimp only at h
    rcases hres : ssbLoop (SpendCondition.new_pkh (Pkh.single refundPkh))
        recipient ild notes st gift with _ | res2
    · rw [hres] at h
      exact absurd h (by simp)
    · rw [hres] at h
      dsimp only at h
      split at h
      · exact absurd h (by simp)
      · cases h
        exact ssbLoop_INV _ _ _ notes st gift res2 hinv hn hres

/-- `simple_spend` preserves the builder invariant. -/
theorem simpleSpend_INV (st : TxBuilder)
    (notes : List (Note × SpendCondition)) (recipient : Digest)
    (gift : Nat) (refundPkh : Digest) (ild : Bool) (hinv : INV st)
    (hn : ∀ p ∈ notes, p.1.assets < W64) :
    ∀ st', st.simple_spend notes recipient gift refundPkh ild =
      some st' → INV st' := by
  intro st' h
  unfold TxBuilder.simple_spend at h
  rcases hres : st.simple_spend_base notes recipient gift refundPkh ild
    with _ | st1
  · rw [hres] at h
    exact absurd h (by simp)
  · rw [hres] at h
    simp only [Option.bind_some, Option.some_bind] at h
    exact recalc_INV st1 ild
      (ssb_INV st notes recipient gift refundPkh ild hinv hn st1 hres)
      st' h

theorem sign_balance (sb : SpendBuilder) (k : PrivateKey) :
    ((sb.sign k).1).is_balanced = sb.is_balanced ∧
    ((sb.sign k).1).note = sb.note := by
  unfold SpendBuilder.sign
  split
  · constructor
    · simp [SpendBuilder.is_balanced, add_signature_seeds, add_signature_fee]
    · rfl
  · exact ⟨rfl, rfl⟩

/-- `TxBuilder::sign` preserves the builder invariant. -/
theorem sign_INV (st : TxBuilder) (k : PrivateKey) (hinv : INV st) :
    INV (st.sign k) := by
  obtain ⟨hsp, hpool⟩ := hinv
  refine ⟨?_, hpool⟩
  intro kv hkv
  simp only [TxBuilder.sign, List.mem_map] at hkv
  obtain ⟨kv0, hkv0, rfl⟩ := hkv
  obtain ⟨hb, hn⟩ := sign_balance kv0.2 k
  rcases hsp kv0 hkv0 with ⟨hbal, hassets⟩
  exact ⟨by rw [hb]; exact hbal, by rw [hn]; exact hassets⟩

theorem add_preimage_balance (sb : SpendBuilder) (d : Digest) (p : Noun) :
    ((sb.add_preimage d p).1).is_balanced = sb.is_balanced ∧
    ((sb.add_preimage d p).1).note = sb.note := by
  unfold SpendBuilder.add_preimage
  split
  · cases hsp : sb.spend with
    | witness w s f =>
      constructor
      · simp [SpendBuilder.is_balanced, hsp, Spend.seeds, Spend.fee]
      · rfl
    | legacy g s f => exact ⟨rfl, rfl⟩
  · exact ⟨rfl, rfl⟩

/-- The preimage fold keeps every active spend balanced. -/
theorem preimage_fold_ok (digest preimage) :
    ∀ (l : List (Name × SpendBuilder))
      (acc : List (Name × SpendBuilder) × Option Digest),
      SpendsOk acc.1 →
      (∀ kv ∈ l, kv.2.is_balanced = true ∧ kv.2.note.assets < W64) →
      SpendsOk (l.foldl (fun acc kv =>
        (acc.1 ++ [(kv.1, (kv.2.add_preimage digest preimage).1)],
          if (kv.2.add_preimage digest preimage).2.isSome
            then (kv.2.add_preimage digest preimage).2 else acc.2))
        acc).1
  | [], _, hm, _ => hm
  | kv :: rest, acc, hm, hl => by
    refine preimage_fold_ok digest preimage rest _ ?_
      (fun kv' h => hl kv' (List.mem_cons_of_mem _ h))
    intro kv' hkv'
    dsimp only at hkv'
    rcases List.mem_append.mp hkv' with h1 | h1
    · exact hm kv' h1
    · rw [List.mem_singleton.mp h1]
      obtain ⟨hb, hn⟩ := add_preimage_balance kv.2 digest preimage
      rcases hl kv (List.mem_cons_self _ _) with ⟨hbal, hassets⟩
      exact ⟨by rw [hb]; exact hbal, by rw [hn]; exact hassets⟩

/-- `TxBuilder::add_preimage` preserves the builder invariant. -/
theorem preimage_INV (st : TxBuilder) (p : Noun) (hinv : INV st) :
    ∀ res, st.add_preimage p = some res → INV res.1 := by
  intro res h
  obtain ⟨hsp, hpool⟩ := hinv
  unfold TxBuilder.add_preimage at h
  split at h
  · cases h
    exact ⟨hsp, hpool⟩
  · rcases hh : p.hashChecked with _ | digest
    · rw [hh] at h
      exact absurd h (by simp)
    · rw [hh] at h
      dsimp only at h
      cases h
      refine ⟨?_, hpool⟩
      exact preimage_fold_ok digest p st.spends ([], none)
        (fun kv hkv => absurd hkv (List.not_mem_nil kv)) hsp

/-- `TxBuilder::validate` is read-only and only succeeds on balanced
builders. -/
theorem validate_INV (st : TxBuilder) (hinv : INV st) :
    ∀ st', st.validate = some st' → st' = st ∧ INV st' := by
  intro st' h
  unfold TxBuilder.validate at h
  split at h
  · exact absurd h (by simp)
  · split at h
    · exact absurd h (by simp)
    · split at h
      · exact absurd h (by simp)
      · cases h
        exact ⟨rfl, hinv⟩

instance (m : List (Name × SpendBuilder)) : Decidable (SpendsOk m) :=
  decidable_of_iff
    (∀ kv ∈ m, kv.2.is_balanced = true ∧ kv.2.note.assets < W64) Iff.rfl

instance (pool : List SpendBuilder) : Decidable (PoolOk pool) :=
  decidable_of_iff (∀ sb ∈ pool, sb.note.assets < W64) Iff.rfl

instance (st : TxBuilder) : Decidable (INV st) :=
  decidable_of_iff (SpendsOk st.spends ∧ PoolOk st.fee_pool) Iff.rfl

/-! ### A concrete fee-oscillation trace (towards claim C8) -/

/-- A concrete V1 note whose assets are the gift (5) plus exactly the
first computed fee, so the first `recalc_and_set_fee` consumes the refund
seed exactly. -/
def c8Note : Note :=
  { version := .V1
    origin_page := 0
    name := Name.new (Digest.mk 3 0 0 0 0) (Digest.mk 4 0 0 0 0)
    note_data := ⟨[]⟩
    assets := 1867781 }

/-- The spend condition of the concrete note. -/
def c8Lock : SpendCondition :=
  SpendCondition.new_pkh (Pkh.single (Digest.mk 9 0 0 0 0))

/-- The concrete builder produced by `simple_spend_base` with the default
fee of `1 << 15` nicks per word. -/
def c8St0 : TxBuilder :=
  ((TxBuilder.new 32768).simple_spend_base [(c8Note, c8Lock)]
    (Digest.mk 1 0 0 0 0) 5 (Digest.mk 2 0 0 0 0) false).getD
    (TxBuilder.new 0)

/-- The merkle proof of the concrete witness (root = the spend
condition's hash), written out as a literal. -/
def c8Proof : MerkleProof :=
  { root := ⟨3560807340339505003, 12090599488879982816,
      2173647568005876308, 10703439716546354121, 786487795672247613⟩
    path := [] }

/-- The concrete witness. -/
def c8Witness : Witness :=
  { lock_merkle_proof :=
      { spend_condition := c8Lock, axis := 1, proof := c8Proof }
    pkh_signature := []
    hax_map := .leaf
    tim := () }

/-- The parent hash (the concrete note's hash) as a literal. -/
def c8Parent : Digest :=
  ⟨11886072024309971059, 14597336030784232676, 17308600037258494293,
    1573119974318171589, 4284383980792433206⟩

/-- The gift seed of the concrete spend. -/
def c8GiftSeed : Seed :=
  { output_source := none
    lock_root := .lockH ⟨13661983760678695445, 6369113186204516520,
      17522986681144921916, 10230116106670742991, 2937245532196564066⟩
    note_data := ⟨[]⟩
    gift := 5
    parent_hash := c8Parent }

/-- The refund seed re-created by the second call. -/
def c8RefundSeed : Seed :=
  { output_source := none
    lock_root := .lockH ⟨14135107163785845237, 13321561901621006117,
      12508016639456166997, 11694471377291327877, 10880926115126488757⟩
    note_data := ⟨[]⟩
    gift := 32768
    parent_hash := c8Parent }

/-- The refund lock of the concrete spend. -/
def c8RefundLock : SpendCondition :=
  SpendCondition.new_pkh (Pkh.single (Digest.mk 2 0 0 0 0))

/-- The concrete spend builder with the given seeds and fee. -/
def c8SB (seeds : List Seed) (fee : Nat) : SpendBuilder :=
  { note := c8Note
    spend := .witness c8Witness seeds fee
    spend_condition := c8Lock
    refund_lock := some c8RefundLock }

/-- The state after the first `recalc_and_set_fee`, as a literal
(verified against the call by the counterexample theorem). -/
def c8St1 : TxBuilder :=
  { spends := [(c8Note.name, c8SB [c8GiftSeed] 1867776)]
    fee_pool := []
    fee_per_word := 32768 }

/-- The state after the second `recalc_and_set_fee`, as a literal. -/
def c8St2 : TxBuilder :=
  { spends := [(c8Note.name, c8SB [c8RefundSeed, c8GiftSeed] 1835008)]
    fee_pool := []
    fee_per_word := 32768 }

/-- The oscillating state with its fee overwritten by the computed fee:
a fixed point of `recalc_and_set_fee`. -/
def c8Fix : TxBuilder :=
  { c8St1 with spends := c8St1.spends.map (fun kv =>
      (kv.1, { kv.2 with spend := kv.2.spend.setFee c8St1.calc_fee })) }

end Rose

end RoseRs

namespace RoseRs

/-! # Claim theorems -/

/-- C5 (counterexample).  The claim says `Name::new_v1(L, S)` has first
component `H(1, L)` and last component `H(1, hash(S), 0)`, with `1` the
atom one.  But the code hashes the boolean `true`, which encodes as the
atom ZERO (`impl Hashable for bool`: true → 0, false → 1), so at the
concrete lock digest `(1,2,3,4,5)` and source `((6,7,8,9,10), false)` the
first component is `H(0, L)`, not `H(1, L)`, and likewise for the last. -/
theorem C5_new_v1_counterexample :
    (Name.newV1 (Digest.mk 1 2 3 4 5) (Source.mk (Digest.mk 6 7 8 9 10) false)).first =
      hashPair (hashAtom 0) (Digest.mk 1 2 3 4 5) ∧
    (Name.newV1 (Digest.mk 1 2 3 4 5) (Source.mk (Digest.mk 6 7 8 9 10) false)).first ≠
      hashPair (hashAtom 1) (Digest.mk 1 2 3 4 5) ∧
    (Name.newV1 (Digest.mk 1 2 3 4 5) (Source.mk (Digest.mk 6 7 8 9 10) false)).last =
      hashPair (hashAtom 0)
        (hashPair (hashPair (Digest.mk 6 7 8 9 10) (hashAtom 1)) (hashAtom 0)) ∧
    (Name.newV1 (Digest.mk 1 2 3 4 5) (Source.mk (Digest.mk 6 7 8 9 10) false)).last ≠
      hashPair (hashAtom 1)
        (hashPair (hashPair (Digest.mk 6 7 8 9 10) (hashAtom 1)) (hashAtom 0)) := by
  refine ⟨by rfl, by decide, by rfl, by decide⟩

/-- C5 (amended).  For every lock digest `L` and source `S`,
`Name::new_v1(L, S)` returns the name whose first component is `H(0, L)`
and whose last component is `H(0, hash(S), 0)`, where `0` is the atom zero
(the encoding of the boolean `true` the code hashes: true → 0, false → 1),
and `hash(S)` is the source's derived hash `H(S.hash, S.is_coinbase)`. -/
theorem C5_new_v1_amended (lock : Digest) (source : Source) :
    (Name.newV1 lock source).first = hashPair (hashAtom 0) lock ∧
    (Name.newV1 lock source).last =
      hashPair (hashAtom 0)
        (hashPair
          (hashPair source.hash (hashAtom (if source.is_coinbase then 0 else 1)))
          (hashAtom 0)) ∧
    hsh true = hashAtom 0 ∧ hsh false = hashAtom 1 :=
  ⟨rfl, rfl, rfl, rfl⟩

/-- C10.  `impl Hashable for Noun` converts every atom with
`u64::try_from(..).expect("atom too large")`: on any noun all of whose
atoms are below 2^64 the abort branch is unreachable and the hash is a
value, while a noun containing a larger atom makes the operation abort
instead of returning. -/
theorem C10_noun_hash_totality :
    (∀ n : Noun, n.boundedAtoms → n.hashChecked = some n.hashN) ∧
    (∀ n : Noun, ¬ n.boundedAtoms → n.hashChecked = none) := by
  constructor
  · intro n h
    simp [Noun.hashChecked, Noun.hashN, Noun.traverseChecked_of_bounded n h]
  · intro n h
    simp [Noun.hashChecked, Noun.traverseChecked_of_unbounded n h]

/-- C10 (witness): the dichotomy applied at the concrete nouns
`[5 7]` (all atoms bounded — the hash is a value) and `[2^64 0]`
(an oversized atom — the hash aborts). -/
theorem C10_noun_hash_totality_witness :
    Noun.hashChecked (.cell (.atom 5) (.atom 7)) =
      some (Noun.hashN (.cell (.atom 5) (.atom 7))) ∧
    Noun.hashChecked (.cell (.atom (2 ^ 64)) (.atom 0)) = none :=
  ⟨C10_noun_hash_totality.1 _ (by decide),
   C10_noun_hash_totality.2 _ (by decide)⟩

/-- C4 (counterexample).  The claim asserts that for every `ZSet` the
element sequence of `into_iter` and the payload order embedded by `to_noun`
are the same order, namely the payload-left-right DFS.  The three-element
set decoded by `ZSet::from_noun` from the concrete noun
`[1 [[2 [0 0]] [3 [0 0]]]]` refutes it: `into_iter` yields `[1, 3, 2]`
while the noun encoding embeds its payloads in the order `[1, 2, 3]`, which
is also the payload-left-right DFS. -/
theorem C4_tap_order_counterexample :
    ZTree.zFromNoun decU64 nounC4 = some treeC4 ∧
    ZTree.tapList treeC4 = [1, 3, 2] ∧
    ZTree.nounTapPayloads (ZTree.zNoun treeC4) =
      [Noun.atom 1, Noun.atom 2, Noun.atom 3] ∧
    ¬((ZTree.tapList treeC4).map toNoun =
        ZTree.nounTapPayloads (ZTree.zNoun treeC4) ∧
      ZTree.tapList treeC4 = ZTree.dfsLR treeC4) := by
  refine ⟨by rfl, ?_, by rfl, ?_⟩
  · rw [ZTree.tapList_eq_dfsRL]; rfl
  · rw [ZTree.tapList_eq_dfsRL]
    intro h
    exact absurd h.2 (by decide)

/-- C3.  The round-trip `cue(jam(x)) = Some(x)` FAILS on the well-formed
noun `Atom(2^64)`: its jam encoding is the ten bytes
`[0, 3, 0, 0, 0, 0, 0, 0, 0, 128]` (a 65-bit atom), and decoding a 65-bit
atom takes `rub_atom`'s indirect branch, which copies the 65 read bits into
a fresh 128-bit buffer with `copy_from_bitslice` — a length-mismatch panic.
Atoms of exactly 64 or 128 bits still round-trip, which brackets the bug to
sizes above 64 that are not multiples of 64. -/
theorem C3_cue_jam_roundtrip :
    jam (.atom (2 ^ 64)) = [0, 3, 0, 0, 0, 0, 0, 0, 0, 128] ∧
    cue (jam (.atom (2 ^ 64))) = .panicked ∧
    cue (jam (.atom (2 ^ 64 - 1))) = .success (.atom (2 ^ 64 - 1)) ∧
    cue (jam (.atom (2 ^ 63))) = .success (.atom (2 ^ 63)) ∧
    cue (jam (.atom (2 ^ 128 - 1))) = .success (.atom (2 ^ 128 - 1)) := by
  refine ⟨by decide, by decide, by decide, by decide, by decide⟩

/-- C9.  `cue` is NOT total on arbitrary byte strings: on the nine bytes
`[0, 0, 0, 0, 0, 0, 0, 0, 4]` the size header claims 64 length bits but the
buffer holds only five more, so `get_size` panics copying a 5-bit slice
into its 64-bit scratch buffer, instead of returning `None`.  Truncating a
valid encoding can also panic: the first nine bytes of the jam of
`Atom(2^64 - 1)` die in the same way inside `rub_atom`. -/
theorem C9_cue_totality :
    cue [0, 0, 0, 0, 0, 0, 0, 0, 4] = .panicked ∧
    jam (.atom (2 ^ 64 - 1)) = [0, 129, 255, 255, 255, 255, 255, 255, 255, 127] ∧
    cue [0, 129, 255, 255, 255, 255, 255, 255, 255] = .panicked := by
  refine ⟨by decide, by decide, by decide⟩

/-- C4 (amended).  For every `ZSet`, the element sequence produced by
`into_iter` is the depth-first traversal that at each node emits the
payload, recurses into the RIGHT subtree, then into the LEFT subtree;
the payload order embedded by `to_noun` is the depth-first traversal that
emits the payload, recurses left, then right.  The two orders agree only on
degenerate shapes, not in general (see the counterexample). -/
theorem C4_tap_order_amended (α : Type) (e : NEnc α) (t : ZTree α) :
    ZTree.tapList t = ZTree.dfsRL t ∧
    ZTree.nounTapPayloads (ZTree.zNoun t) = (ZTree.dfsLR t).map toNoun :=
  ⟨ZTree.tapList_eq_dfsRL t, ZTree.nounTapPayloads_zNoun t⟩

/-- C6.  Permutation invariance of the content-addressed set: inserting the
elements of a list into an empty `ZSet` in any order yields the same treap,
hence the same hash digest and the same tap order.  The hypotheses ask that
the inserted values' tip digests and `mor` tiebreak digests fit their
40-byte big-endian form (`okElem`, true of every real tip5 digest since its
five belts are below 2^64) and that neither digest collides on two distinct
inserted values — the content-addressing assumption under which `insert`'s
`gor`/`mor` comparisons deterministically place every element. -/
theorem C6_zset_permutation_invariance (α : Type) (e : NEnc α) (h : Hsh α)
    (l1 l2 : List α) (hperm : l1.Perm l2)
    (hok : ∀ y ∈ l1, ZTree.okElem y)
    (hkey : ∀ y ∈ l1, ∀ z ∈ l1, ZTree.keyA y = ZTree.keyA z → y = z)
    (hpr : ∀ y ∈ l1, ∀ z ∈ l1, ZTree.prA y = ZTree.prA z → y = z) :
    ZTree.ofList l1 = ZTree.ofList l2 ∧
    ZTree.zHash (ZTree.ofList l1) = ZTree.zHash (ZTree.ofList l2) ∧
    ZTree.tapList (ZTree.ofList l1) = ZTree.tapList (ZTree.ofList l2) := by
  have heq := ZTree.ofList_perm hperm hok hkey hpr
  exact ⟨heq, congrArg _ heq, congrArg _ heq⟩

/-- C2.  `RawTx::outputs` groups the seeds of all spends (iterated through
the name-keyed `ZMap`, each spend contributing its seed vector) into a
`BTreeMap` keyed by the seeds' lock-root hashes, and returns exactly one
note per group, namely the claimed one: Version V1, assets the (wrapping
`u64`) sum of the gifts of the group's seeds, note data taken from the
LAST seed of the group's tap order.  The conjuncts: the output list is one
claimed note per group; no group is empty; a group's set holds only seeds
whose lock-root hash is its key; every group element comes from the seed
stream; every streamed seed has a group keyed by its lock-root hash holding
a tip-equal element (the content-addressed set deduplicates equal-tip
seeds); the groups are strictly sorted in the `BTreeMap` digest order; and
the claimed note per group has version V1, the wrapped gift sum as assets,
and the last tapped seed's note data. -/
theorem C2_rawtx_outputs (tx : RawTx) :
    RawTx.outputs tx = (seedsByLock tx.spends).map specNote ∧
    (∀ kv ∈ seedsByLock tx.spends, kv.2 ≠ ZTree.leaf) ∧
    (∀ kv ∈ seedsByLock tx.spends, ∀ z ∈ ZTree.elems kv.2,
        z.lock_root.lrHash = kv.1) ∧
    (∀ kv ∈ seedsByLock tx.spends, ∀ z ∈ ZTree.elems kv.2,
        z ∈ spendSeedStream tx.spends) ∧
    (∀ s ∈ spendSeedStream tx.spends, ∃ kv ∈ seedsByLock tx.spends,
        kv.1 = s.lock_root.lrHash ∧
        ∃ s', s' ∈ ZTree.elems kv.2 ∧ ZTree.tipEq s' s = true) ∧
    (seedsByLock tx.spends).Pairwise (fun p q => digLt p.1 q.1 = true) ∧
    (∀ kv ∈ seedsByLock tx.spends,
        (specNote kv).version = Version.V1 ∧
        (specNote kv).assets = ((ZTree.tapList kv.2).map Seed.gift).sum % W64 ∧
        (specNote kv).note_data =
          ((ZTree.tapList kv.2).getLastD defaultSeed).note_data) := by
  obtain ⟨hnl, hkey, hpw, hprov, hcov, _⟩ :=
    seedsByLockFrom_spec (spendSeedStream tx.spends) []
      (fun kv h => absurd h (List.not_mem_nil kv))
      (fun kv h => absurd h (List.not_mem_nil kv))
      List.Pairwise.nil
  refine ⟨filterMap_groupNote _ hnl, hnl, hkey, ?_, hcov, hpw, ?_⟩
  · intro kv hkv z hz
    rcases hprov kv hkv z hz with ⟨kv0, h0, _⟩ | h
    · exact absurd h0 (List.not_mem_nil kv0)
    · exact h
  · intro kv hkv
    exact ⟨rfl, specNote_assets kv, rfl⟩

/-- C1.  The builder balance invariant: starting from a builder whose
active spends are all balanced (with `u64`-bounded note assets, as in
Rust, where `assets` is a `u64`) and whose fee-pool notes are
`u64`-bounded, every successful public `TxBuilder` call — `simple_spend_base`,
`simple_spend`, `recalc_and_set_fee`, `set_fee_and_balance_refund`,
`sign`, `add_preimage`, `validate` — leaves every `SpendBuilder` in the
active spends map satisfying `is_balanced` (I1: `assets = Σ gifts + fee`
in `u64` arithmetic).  Calls that panic or return an error are not
successful and are excluded, matching the claim. -/
theorem C1_builder_balance (st : Rose.TxBuilder) (hinv : Rose.INV st) :
    (∀ notes recipient gift refundPkh ild st',
      (∀ p ∈ notes, (p : Note × Rose.SpendCondition).1.assets < W64) →
      st.simple_spend_base notes recipient gift refundPkh ild = some st' →
      Rose.INV st' ∧ ∀ kv ∈ st'.spends, kv.2.is_balanced = true) ∧
    (∀ notes recipient gift refundPkh ild st',
      (∀ p ∈ notes, (p : Note × Rose.SpendCondition).1.assets < W64) →
      st.simple_spend notes recipient gift refundPkh ild = some st' →
      Rose.INV st' ∧ ∀ kv ∈ st'.spends, kv.2.is_balanced = true) ∧
    (∀ ild st', st.recalc_and_set_fee ild = some st' →
      Rose.INV st' ∧ ∀ kv ∈ st'.spends, kv.2.is_balanced = true) ∧
    (∀ fee adjust ild st',
      st.set_fee_and_balance_refund fee adjust ild = some st' →
      Rose.INV st' ∧ ∀ kv ∈ st'.spends, kv.2.is_balanced = true) ∧
    (∀ k, Rose.INV (st.sign k) ∧
      ∀ kv ∈ (st.sign k).spends, kv.2.is_balanced = true) ∧
    (∀ p res, st.add_preimage p = some res →
      Rose.INV res.1 ∧ ∀ kv ∈ res.1.spends, kv.2.is_balanced = true) ∧
    (∀ st', st.validate = some st' →
      Rose.INV st' ∧ ∀ kv ∈ st'.spends, kv.2.is_balanced = true) := by
  have bal : ∀ st2 : Rose.TxBuilder, Rose.INV st2 →
      ∀ kv ∈ st2.spends, kv.2.is_balanced = true :=
    fun st2 h2 kv hkv => (h2.1 kv hkv).1
  refine ⟨?_, ?_, ?_, ?_, ?_, ?_, ?_⟩
  · intro notes recipient gift refundPkh ild st' hn h
    have h2 := Rose.ssb_INV st notes recipient gift refundPkh ild hinv hn st' h
    exact ⟨h2, bal st' h2⟩
  · intro notes recipient gift refundPkh ild st' hn h
    have h2 := Rose.simpleSpend_INV st notes recipient gift refundPkh ild hinv hn st' h
    exact ⟨h2, bal st' h2⟩
  · intro ild st' h
    have h2 := Rose.recalc_INV st ild hinv st' h
    exact ⟨h2, bal st' h2⟩
  · intro fee adjust ild st' h
    have h2 := Rose.setFee_INV st fee adjust ild hinv st' h
    exact ⟨h2, bal st' h2⟩
  · intro k
    have h2 := Rose.sign_INV st k hinv
    exact ⟨h2, bal _ h2⟩
  · intro p res h
    have h2 := Rose.preimage_INV st p hinv res h
    exact ⟨h2, bal _ h2⟩
  · intro st' h
    obtain ⟨rfl, h2⟩ := Rose.validate_INV st hinv st' h
    exact ⟨h2, bal _ h2⟩

/-- C1 (witness): the invariant theorem applied to the concrete builder
built by `simple_spend_base` from one note, whose invariant is checked by
evaluation. -/
theorem C1_builder_balance_witness :
    Rose.INV Rose.c8St0 ∧
    (∀ ild st', Rose.c8St0.recalc_and_set_fee ild = some st' →
      Rose.INV st' ∧ ∀ kv ∈ st'.spends, kv.2.is_balanced = true) :=
  ⟨by decide, (C1_builder_balance Rose.c8St0 (by decide)).2.2.1⟩

/-- C8 (counterexample).  The claim asserts that two successive successful
`recalc_and_set_fee` calls leave the state of the second identical to the
first.  On the concrete builder `c8St0` (one note worth gift + first fee)
both calls succeed but the states differ — and the third call returns to
the first state, a period-two oscillation: the first call consumes the
refund seed exactly and, with `adjust_fee`, trims the target by the
vanished seed's word cost, so the next computed fee is lower, the second
call takes the decrease branch, lowers the fee and re-creates a refund
seed, raising the computed fee again. -/
theorem C8_recalc_oscillation :
    ((Rose.TxBuilder.new 32768).simple_spend_base
      [(Rose.c8Note, Rose.c8Lock)] (Digest.mk 1 0 0 0 0) 5
      (Digest.mk 2 0 0 0 0) false = some Rose.c8St0) ∧
    Rose.c8St0.recalc_and_set_fee false = some Rose.c8St1 ∧
    Rose.c8St1.recalc_and_set_fee false = some Rose.c8St2 ∧
    Rose.c8St2.recalc_and_set_fee false = some Rose.c8St1 ∧
    Rose.c8St1 ≠ Rose.c8St2 ∧
    Rose.c8St1.spends.map (fun kv => kv.2.spend.fee) = [1867776] ∧
    Rose.c8St2.spends.map (fun kv => kv.2.spend.fee) = [1835008] := by
  refine ⟨by decide, by decide, by decide, by decide, by decide, by decide,
    by decide⟩

/-- C8 (amended).  `recalc_and_set_fee` is a no-op — hence trivially
idempotent — exactly when the recomputed fee already equals the current
fee; it is NOT idempotent in general (see the counterexample's period-two
oscillation). -/
theorem C8_recalc_fixpoint (st : Rose.TxBuilder) (ild : Bool)
    (h : st.calc_fee = st.cur_fee) :
    st.recalc_and_set_fee ild = some st := by
  unfold Rose.TxBuilder.recalc_and_set_fee Rose.TxBuilder.set_fee_and_balance_refund
  dsimp only
  rw [if_pos h.symm]

/-- C8 (witness): the fixpoint theorem applied to the concrete builder
whose fee was set to the recomputed fee. -/
theorem C8_recalc_fixpoint_witness :
    Rose.TxBuilder.calc_fee Rose.c8Fix = Rose.TxBuilder.cur_fee Rose.c8Fix ∧
    Rose.c8Fix.recalc_and_set_fee false = some Rose.c8Fix :=
  ⟨by decide, C8_recalc_fixpoint Rose.c8Fix false (by decide)⟩

/-- C6 (witness): the invariance applied to the concrete permutation pair
`[1, 2, 3]` and `[3, 1, 2]` of naturals, whose digest hypotheses are checked
by evaluation. -/
theorem C6_zset_permutation_invariance_witness :
    ZTree.ofList ([1, 2, 3] : List Nat) = ZTree.ofList [3, 1, 2] ∧
    ZTree.zHash (ZTree.ofList ([1, 2, 3] : List Nat)) =
      ZTree.zHash (ZTree.ofList [3, 1, 2]) ∧
    ZTree.tapList (ZTree.ofList ([1, 2, 3] : List Nat)) =
      ZTree.tapList (ZTree.ofList [3, 1, 2]) :=
  C6_zset_permutation_invariance Nat inferInstance inferInstance [1, 2, 3] [3, 1, 2]
    (by decide) (by decide) (by decide) (by decide)

end RoseRs
